import Mathlib

/-!
# srctl split-schema subsystem: verification development

The repository's observable code is the two demo scripts
`examples/split-demo/sample-app/producer.py` and `consumer.py`; the
splitter / registrar / registry-client / reference-resolver / wire-codec
subsystem they exercise is described by the specification but absent from
the snippet.  Definitions for that subsystem below are therefore modelled
from the spec (each such definition says so in its doc comment); the two
demo scripts are embedded directly from their source.

Conventions: machine integers are `Nat`/`Int` (byte sequences are
`List Nat` with each element `< 256`); fallible operations return
`Option`/`Except`; stateful components are explicit state-passing
functions.  Avro `double` is floating point and is not modelled; Avro
`string` values are modelled by their UTF-8 byte sequences.
-/

namespace Srctl

/-! ## Schema documents (Schema Graph Model, spec section 3) -/

/-- Avro primitive types used by the model (Avro `double` is floating
point and is out of scope; `string` is byte-sequence valued). -/
inductive PrimT where
  | pnull
  | pboolean
  | plong
  | pstring
deriving DecidableEq, Repr

/-- Modelled from the spec: an Avro schema document.  A document is a
tree of primitives, named-type references, named record definitions
(fields keep their name, optional default and declaration order), unions
and arrays.  `prim` carries an optional logical-type annotation (which
does not change the binary encoding). -/
inductive SchemaDoc where
  | prim (p : PrimT) (logical : Option String)
  | named (n : String)
  | record (name : String) (fields : List (String × Option String × SchemaDoc))
  | union (branches : List SchemaDoc)
  | array (elem : SchemaDoc)

/-- Avro datum values: the things encoded/decoded by the wire codec.
Strings are carried as UTF-8 byte lists. -/
inductive AvroValue where
  | vnull
  | vbool (b : Bool)
  | vlong (i : Int)
  | vstr (bytes : List Nat)
  | vrecord (fields : List AvroValue)
  | vunion (branch : Nat) (v : AvroValue)
  | varray (elems : List AvroValue)

/-! ## Variable-length integers (Avro binary primitive layer) -/

/-- Avro zigzag mapping of a signed long onto a non-negative integer. -/
def zigzag (i : Int) : Nat :=
  if 0 ≤ i then (2 * i).toNat else (-(2 * i) - 1).toNat

/-- Inverse of `zigzag`. -/
def unzigzag (n : Nat) : Int :=
  if n % 2 = 0 then (n / 2 : Nat) else -((n / 2 : Nat) : Int) - 1

theorem unzigzag_zigzag (i : Int) : unzigzag (zigzag i) = i := by
  unfold zigzag unzigzag
  by_cases h : 0 ≤ i
  · rw [if_pos h]
    have h2 : ((2 * i).toNat : Int) = 2 * i := Int.toNat_of_nonneg (by omega)
    have : (2 * i).toNat % 2 = 0 := by omega
    rw [if_pos this]
    omega
  · rw [if_neg h]
    have h2 : ((-(2 * i) - 1).toNat : Int) = -(2 * i) - 1 := Int.toNat_of_nonneg (by omega)
    have : (-(2 * i) - 1).toNat % 2 = 1 := by omega
    rw [if_neg (by omega)]
    omega

/-- Base-128 varint encoding (little-endian groups, high bit = continuation). -/
def encVarint (n : Nat) : List Nat :=
  if h : n < 128 then [n]
  else (128 + n % 128) :: encVarint (n / 128)
termination_by n
decreasing_by exact Nat.div_lt_self (by omega) (by omega)

/-- Base-128 varint decoding; returns the value and the unconsumed tail. -/
def decVarint : List Nat → Option (Nat × List Nat)
  | [] => none
  | b :: rest =>
    if b < 128 then some (b, rest)
    else match decVarint rest with
      | some (m, r) => some ((b - 128) + 128 * m, r)
      | none => none

theorem decVarint_encVarint (n : Nat) (rest : List Nat) :
    decVarint (encVarint n ++ rest) = some (n, rest) := by
  induction n using Nat.strong_induction_on with
  | _ n ih =>
    unfold encVarint
    by_cases h : n < 128
    · rw [dif_pos h]
      simp [decVarint, h]
    · rw [dif_neg h]
      have hrec := ih (n / 128) (Nat.div_lt_self (by omega) (by omega))
      rw [List.cons_append]
      show (if 128 + n % 128 < 128 then some (128 + n % 128, encVarint (n / 128) ++ rest)
            else match decVarint (encVarint (n / 128) ++ rest) with
              | some (m, r) => some ((128 + n % 128 - 128) + 128 * m, r)
              | none => none) = some (n, rest)
      rw [if_neg (by omega), hrec]
      show some (128 + n % 128 - 128 + 128 * (n / 128), rest) = some (n, rest)
      have : 128 + n % 128 - 128 + 128 * (n / 128) = n := by omega
      rw [this]

/-- Every varint byte is a valid byte (`< 256`). -/
theorem encVarint_bytes (n : Nat) : ∀ b ∈ encVarint n, b < 256 := by
  induction n using Nat.strong_induction_on with
  | _ n ih =>
    unfold encVarint
    by_cases h : n < 128
    · rw [dif_pos h]; intro b hb; simp at hb; omega
    · rw [dif_neg h]
      intro b hb
      rcases List.mem_cons.mp hb with h1 | h2
      · have : n % 128 < 128 := Nat.mod_lt _ (by omega)
        omega
      · exact ih (n / 128) (Nat.div_lt_self (by omega) (by omega)) b h2

/-- Avro long encoding: zigzag then varint. -/
def encLong (i : Int) : List Nat := encVarint (zigzag i)

/-- Avro long decoding. -/
def decLong (bs : List Nat) : Option (Int × List Nat) :=
  match decVarint bs with
  | some (n, rest) => some (unzigzag n, rest)
  | none => none

theorem decLong_encLong (i : Int) (rest : List Nat) :
    decLong (encLong i ++ rest) = some (i, rest) := by
  simp [decLong, encLong, decVarint_encVarint, unzigzag_zigzag]

/-! ## Schema-directed Avro binary codec (Wire Codec payload layer, spec 4.5)

Modelled from the spec: "serialize `record` against the ResolvedSchema
using standard Avro binary encoding" / "deserialize remaining bytes
against the ResolvedSchema".  A `named` reference is not a usable
encoding schema (only fully resolved schemas encode), so no value is
valid for it. -/

mutual

/-- Modelled from the spec: structural validity of a datum for a
(resolved) schema.  Longs must fit in 64 bits, strings are byte
sequences, records match field-for-field in order, a union value selects
an in-range branch and is valid for it. -/
def validFor : SchemaDoc → AvroValue → Bool
  | .prim .pnull _, .vnull => true
  | .prim .pboolean _, .vbool _ => true
  | .prim .plong _, .vlong i => decide (-(2 ^ 63) ≤ i ∧ i < 2 ^ 63)
  | .prim .pstring _, .vstr bs => bs.all (fun b => b < 256)
  | .record _ fs, .vrecord vs => validFields fs vs
  | .union bs, .vunion i v => validBranch bs i v
  | .array t, .varray vs => validElems t vs
  | _, _ => false

def validFields : List (String × Option String × SchemaDoc) → List AvroValue → Bool
  | [], [] => true
  | (_, _, t) :: fs, v :: vs => validFor t v && validFields fs vs
  | _, _ => false

def validBranch : List SchemaDoc → Nat → AvroValue → Bool
  | [], _, _ => false
  | b :: _, 0, v => validFor b v
  | _ :: bs, i + 1, v => validBranch bs i v

def validElems : SchemaDoc → List AvroValue → Bool
  | _, [] => true
  | t, v :: vs => validFor t v && validElems t vs

end

mutual

/-- Modelled from the spec: Avro binary encoding of a datum against a
resolved schema.  Fails (`none`, the codec's `SchemaMismatch`) when the
datum does not structurally match the schema. -/
def encodeVal : SchemaDoc → AvroValue → Option (List Nat)
  | .prim .pnull _, .vnull => some []
  | .prim .pboolean _, .vbool b => some [if b then 1 else 0]
  | .prim .plong _, .vlong i => some (encLong i)
  | .prim .pstring _, .vstr bs => some (encLong bs.length ++ bs)
  | .record _ fs, .vrecord vs => encodeFields fs vs
  | .union bs, .vunion i v =>
    match encodeBranch bs i v with
    | some payload => some (encLong i ++ payload)
    | none => none
  | .array t, .varray vs =>
    match vs with
    | [] => some (encLong 0)
    | _ =>
      match encodeElems t vs with
      | some payload => some (encLong vs.length ++ payload ++ encLong 0)
      | none => none
  | _, _ => none

def encodeFields : List (String × Option String × SchemaDoc) → List AvroValue →
    Option (List Nat)
  | [], [] => some []
  | (_, _, t) :: fs, v :: vs =>
    match encodeVal t v, encodeFields fs vs with
    | some b1, some b2 => some (b1 ++ b2)
    | _, _ => none
  | _, _ => none

def encodeBranch : List SchemaDoc → Nat → AvroValue → Option (List Nat)
  | [], _, _ => none
  | b :: _, 0, v => encodeVal b v
  | _ :: bs, i + 1, v => encodeBranch bs i v

def encodeElems : SchemaDoc → List AvroValue → Option (List Nat)
  | _, [] => some []
  | t, v :: vs =>
    match encodeVal t v, encodeElems t vs with
    | some b1, some b2 => some (b1 ++ b2)
    | _, _ => none

end

mutual

/-- Modelled from the spec: Avro binary decoding against a resolved
schema; returns the datum and the unconsumed tail, `none` on a
structural mismatch (the codec's `SchemaMismatch`).  Arrays accept the
single-block form the encoder produces. -/
def decodeVal : SchemaDoc → List Nat → Option (AvroValue × List Nat)
  | .prim .pnull _, bs => some (.vnull, bs)
  | .prim .pboolean _, b :: bs =>
    if b = 0 then some (.vbool false, bs)
    else if b = 1 then some (.vbool true, bs)
    else none
  | .prim .pboolean _, [] => none
  | .prim .plong _, bs =>
    match decLong bs with
    | some (i, rest) => some (.vlong i, rest)
    | none => none
  | .prim .pstring _, bs =>
    match decLong bs with
    | some (len, rest) =>
      if 0 ≤ len ∧ len.toNat ≤ rest.length then
        some (.vstr (rest.take len.toNat), rest.drop len.toNat)
      else none
    | none => none
  | .named _, _ => none
  | .record _ fs, bs =>
    match decodeFields fs bs with
    | some (vs, rest) => some (.vrecord vs, rest)
    | none => none
  | .union brs, bs =>
    match decLong bs with
    | some (i, rest) =>
      if 0 ≤ i then
        match decodeBranch brs i.toNat rest with
        | some (v, rest') => some (.vunion i.toNat v, rest')
        | none => none
      else none
    | none => none
  | .array t, bs =>
    match decLong bs with
    | some (c, rest) =>
      if c = 0 then some (.varray [], rest)
      else if 0 < c then
        match decodeElems t c.toNat rest with
        | some (vs, rest') =>
          match decLong rest' with
          | some (z, rest'') => if z = 0 then some (.varray vs, rest'') else none
          | none => none
        | none => none
      else none
    | none => none

def decodeFields : List (String × Option String × SchemaDoc) → List Nat →
    Option (List AvroValue × List Nat)
  | [], bs => some ([], bs)
  | (_, _, t) :: fs, bs =>
    match decodeVal t bs with
    | some (v, rest) =>
      match decodeFields fs rest with
      | some (vs, rest') => some (v :: vs, rest')
      | none => none
    | none => none

def decodeBranch : List SchemaDoc → Nat → List Nat → Option (AvroValue × List Nat)
  | [], _, _ => none
  | b :: _, 0, bs => decodeVal b bs
  | _ :: brs, i + 1, bs => decodeBranch brs i bs

def decodeElems : SchemaDoc → Nat → List Nat → Option (List AvroValue × List Nat)
  | _, 0, bs => some ([], bs)
  | t, n + 1, bs =>
    match decodeVal t bs with
    | some (v, rest) =>
      match decodeElems t n rest with
      | some (vs, rest') => some (v :: vs, rest')
      | none => none
    | none => none

end

/-! ### Codec round-trip -/

/-- Combined round-trip statement for the four mutually recursive codec
functions, proved by strong induction on the size of the value/schema
pair. -/
theorem codec_roundTrip_all : ∀ n : Nat,
    (∀ s v, sizeOf v + sizeOf s = n → validFor s v = true →
      ∀ rest, ∃ bs, encodeVal s v = some bs ∧ decodeVal s (bs ++ rest) = some (v, rest)) ∧
    (∀ fs vs, sizeOf vs + sizeOf fs = n → validFields fs vs = true →
      ∀ rest, ∃ bs, encodeFields fs vs = some bs ∧
        decodeFields fs (bs ++ rest) = some (vs, rest)) ∧
    (∀ brs i v, sizeOf v + sizeOf brs = n → validBranch brs i v = true →
      ∀ rest, ∃ bs, encodeBranch brs i v = some bs ∧
        decodeBranch brs i (bs ++ rest) = some (v, rest)) ∧
    (∀ t vs, sizeOf vs + sizeOf t = n → validElems t vs = true →
      ∀ rest, ∃ bs, encodeElems t vs = some bs ∧
        decodeElems t vs.length (bs ++ rest) = some (vs, rest)) := by
  intro n
  induction n using Nat.strong_induction_on with
  | _ n ih =>
    refine ⟨?_, ?_, ?_, ?_⟩
    · -- values
      intro s v hn hv rest
      cases s with
      | prim p l =>
        cases p with
        | pnull =>
          cases v <;> simp [validFor] at hv
          exact ⟨[], by simp [encodeVal], by simp [decodeVal]⟩
        | pboolean =>
          cases v <;> simp [validFor] at hv
          case vbool b =>
            cases b
            · exact ⟨[0], by simp [encodeVal], by simp [decodeVal]⟩
            · exact ⟨[1], by simp [encodeVal], by simp [decodeVal]⟩
        | plong =>
          cases v <;> simp [validFor] at hv
          case vlong i =>
            exact ⟨encLong i, by simp [encodeVal], by simp [decodeVal, decLong_encLong]⟩
        | pstring =>
          cases v <;> simp [validFor] at hv
          case vstr bsv =>
            refine ⟨encLong bsv.length ++ bsv, by simp [encodeVal], ?_⟩
            rw [List.append_assoc]
            simp only [decodeVal, decLong_encLong]
            rw [if_pos ?side]
            case side =>
              constructor
              · exact_mod_cast Int.natCast_nonneg bsv.length
              · rw [Int.toNat_natCast, List.length_append]; omega
            rw [Int.toNat_natCast, List.take_left, List.drop_left]
      | named nm =>
        cases v <;> simp [validFor] at hv
      | record nm fs =>
        cases v <;> simp [validFor] at hv
        case vrecord vs =>
          have hlt : sizeOf vs + sizeOf fs < n := by
            simp at hn; omega
          obtain ⟨bs, he, hd⟩ := (ih _ hlt).2.1 fs vs rfl hv rest
          exact ⟨bs, by simp [encodeVal, he], by simp [decodeVal, hd]⟩
      | union brs =>
        cases v <;> simp [validFor] at hv
        case vunion i pv =>
          have hlt : sizeOf pv + sizeOf brs < n := by
            simp at hn; omega
          obtain ⟨bs, he, hd⟩ := (ih _ hlt).2.2.1 brs i pv rfl hv rest
          refine ⟨encLong i ++ bs, by simp [encodeVal, he], ?_⟩
          rw [List.append_assoc]
          simp only [decodeVal, decLong_encLong]
          rw [if_pos (by exact_mod_cast Int.natCast_nonneg i)]
          rw [Int.toNat_natCast, hd]
      | array t =>
        cases v <;> simp [validFor] at hv
        case varray vs =>
          cases vs with
          | nil =>
            refine ⟨encLong 0, by simp [encodeVal], ?_⟩
            simp [decodeVal, decLong_encLong]
          | cons v0 vtl =>
            have hlt : sizeOf (v0 :: vtl) + sizeOf t < n := by
              simp at hn ⊢; omega
            obtain ⟨bs, he, hd⟩ :=
              (ih _ hlt).2.2.2 t (v0 :: vtl) rfl hv (encLong 0 ++ rest)
            refine ⟨encLong ((v0 :: vtl).length : Int) ++ bs ++ encLong 0,
              by simp [encodeVal, he], ?_⟩
            rw [List.append_assoc, List.append_assoc]
            simp only [decodeVal, decLong_encLong]
            simp only [List.length_cons] at hd ⊢
            rw [if_neg (by omega), if_pos (by omega)]
            rw [Int.toNat_natCast, hd]
            simp [decLong_encLong]
    · -- record fields
      intro fs vs hn hv rest
      cases fs with
      | nil =>
        cases vs with
        | nil => exact ⟨[], by simp [encodeFields], by simp [decodeFields]⟩
        | cons v vtl => simp [validFields] at hv
      | cons f ftl =>
        obtain ⟨fnm, fdf, ft⟩ := f
        cases vs with
        | nil => simp [validFields] at hv
        | cons v vtl =>
          simp only [validFields, Bool.and_eq_true] at hv
          have hlt1 : sizeOf v + sizeOf ft < n := by simp at hn; omega
          have hlt2 : sizeOf vtl + sizeOf ftl < n := by simp at hn; omega
          obtain ⟨bs2, he2, hd2⟩ := (ih _ hlt2).2.1 ftl vtl rfl hv.2 rest
          obtain ⟨bs1, he1, hd1⟩ := (ih _ hlt1).1 ft v rfl hv.1 (bs2 ++ rest)
          refine ⟨bs1 ++ bs2, by simp [encodeFields, he1, he2], ?_⟩
          rw [List.append_assoc]
          simp [decodeFields, hd1, hd2]
    · -- union branches
      intro brs i v hn hv rest
      cases brs with
      | nil => simp [validBranch] at hv
      | cons b btl =>
        cases i with
        | zero =>
          simp only [validBranch] at hv
          have hlt : sizeOf v + sizeOf b < n := by simp at hn; omega
          obtain ⟨bs, he, hd⟩ := (ih _ hlt).1 b v rfl hv rest
          exact ⟨bs, by simp [encodeBranch, he], by simp [decodeBranch, hd]⟩
        | succ j =>
          simp only [validBranch] at hv
          have hlt : sizeOf v + sizeOf btl < n := by simp at hn; omega
          obtain ⟨bs, he, hd⟩ := (ih _ hlt).2.2.1 btl j v rfl hv rest
          exact ⟨bs, by simp [encodeBranch, he], by simp [decodeBranch, hd]⟩
    · -- array elements
      intro t vs hn hv rest
      cases vs with
      | nil => exact ⟨[], by simp [encodeElems], by simp [decodeElems]⟩
      | cons v vtl =>
        simp only [validElems, Bool.and_eq_true] at hv
        have hlt1 : sizeOf v + sizeOf t < n := by simp at hn; omega
        have hlt2 : sizeOf vtl + sizeOf t < n := by simp at hn; omega
        obtain ⟨bs2, he2, hd2⟩ := (ih _ hlt2).2.2.2 t vtl rfl hv.2 rest
        obtain ⟨bs1, he1, hd1⟩ := (ih _ hlt1).1 t v rfl hv.1 (bs2 ++ rest)
        refine ⟨bs1 ++ bs2, by simp [encodeElems, he1, he2], ?_⟩
        rw [List.append_assoc]
        simp [decodeElems, hd1, hd2]

/-- Round-trip of the schema-directed Avro codec: a datum valid for a
resolved schema encodes successfully and decodes back to itself, leaving
any trailing bytes unconsumed. -/
theorem avro_roundTrip (s : SchemaDoc) (v : AvroValue) (hv : validFor s v = true)
    (rest : List Nat) :
    ∃ bs, encodeVal s v = some bs ∧ decodeVal s (bs ++ rest) = some (v, rest) :=
  (codec_roundTrip_all (sizeOf v + sizeOf s)).1 s v rfl hv rest

/-! ## Error taxonomy (spec section 7) -/

/-- Modelled from the spec: the subsystem's error taxonomy.  All errors
are explicit result values; nothing panics. -/
inductive SrctlError where
  | schemaError
  | subjectConflict
  | malformedEnvelope
  | schemaMismatch
  | unknownId
  | referenceCycle
  | idSpaceExhausted
deriving DecidableEq, Repr

/-! ## Wire envelope (spec 4.5 and section 6)

Modelled from the spec: "byte 0 = format marker (reserved constant),
bytes 1–4 = globalId as big-endian unsigned 32-bit integer, remaining
bytes = Avro binary payload". -/

/-- The reserved 1-byte format marker. -/
def FORMAT_MARKER : Nat := 0

/-- The four big-endian base-256 digits of a 32-bit globalId. -/
def be32 (id : Nat) : List Nat :=
  [id / 2 ^ 24 % 256, id / 2 ^ 16 % 256, id / 2 ^ 8 % 256, id % 256]

/-- Big-endian reassembly of four bytes. -/
def from32 (b3 b2 b1 b0 : Nat) : Nat :=
  b3 * 2 ^ 24 + b2 * 2 ^ 16 + b1 * 2 ^ 8 + b0

/-- Modelled from the spec: prepend the WireEnvelope header (1-byte
format marker + 4-byte big-endian globalId) to an Avro binary payload. -/
def frame (id : Nat) (payload : List Nat) : List Nat :=
  FORMAT_MARKER :: (be32 id ++ payload)

/-- Modelled from the spec: read the WireEnvelope header back, failing
with `MalformedEnvelope` when the buffer is shorter than the header
length or the format marker is unrecognized. -/
def unframe : List Nat → Except SrctlError (Nat × List Nat)
  | m :: b3 :: b2 :: b1 :: b0 :: payload =>
    if m = FORMAT_MARKER then .ok (from32 b3 b2 b1 b0, payload)
    else .error .malformedEnvelope
  | _ => .error .malformedEnvelope

theorem from32_be32 (id : Nat) (h : id < 2 ^ 32) :
    from32 (id / 2 ^ 24 % 256) (id / 2 ^ 16 % 256) (id / 2 ^ 8 % 256) (id % 256) = id := by
  unfold from32
  omega

theorem unframe_frame (id : Nat) (h : id < 2 ^ 32) (payload : List Nat) :
    unframe (frame id payload) = .ok (id, payload) := by
  simp only [frame, be32, FORMAT_MARKER, List.cons_append, List.nil_append, unframe]
  rw [if_pos trivial]
  rw [from32_be32 id h]

theorem unframe_short (bs : List Nat) (h : bs.length < 5) :
    unframe bs = .error .malformedEnvelope := by
  match bs with
  | [] => rfl
  | [_] => rfl
  | [_, _] => rfl
  | [_, _, _] => rfl
  | [_, _, _, _] => rfl
  | _ :: _ :: _ :: _ :: _ :: _ => simp at h; omega

theorem unframe_badMarker (bs : List Nat) (h : bs.head? ≠ some FORMAT_MARKER) :
    unframe bs = .error .malformedEnvelope := by
  match bs with
  | [] => rfl
  | [_] => rfl
  | [_, _] => rfl
  | [_, _, _] => rfl
  | [_, _, _, _] => rfl
  | m :: _ :: _ :: _ :: _ :: _ =>
    simp only [List.head?] at h
    simp only [unframe]
    rw [if_neg (by intro hm; exact h (by rw [hm]))]

/-! ## Schema text equality (byte-identical schema comparison) -/

mutual

/-- Byte-identity test on schema documents, standing in for the
byte-identical schema-text comparison the registry performs. -/
def sbeq : SchemaDoc → SchemaDoc → Bool
  | .prim p1 l1, .prim p2 l2 => p1 == p2 && l1 == l2
  | .named n1, .named n2 => n1 == n2
  | .record n1 fs1, .record n2 fs2 => n1 == n2 && sbeqFields fs1 fs2
  | .union bs1, .union bs2 => sbeqList bs1 bs2
  | .array t1, .array t2 => sbeq t1 t2
  | _, _ => false

def sbeqFields : List (String × Option String × SchemaDoc) →
    List (String × Option String × SchemaDoc) → Bool
  | [], [] => true
  | (n1, d1, t1) :: fs1, (n2, d2, t2) :: fs2 =>
    n1 == n2 && d1 == d2 && sbeq t1 t2 && sbeqFields fs1 fs2
  | _, _ => false

def sbeqList : List SchemaDoc → List SchemaDoc → Bool
  | [], [] => true
  | b1 :: bs1, b2 :: bs2 => sbeq b1 b2 && sbeqList bs1 bs2
  | _, _ => false

end

theorem sbeq_refl_all : ∀ n : Nat,
    (∀ d : SchemaDoc, sizeOf d = n → sbeq d d = true) ∧
    (∀ fs : List (String × Option String × SchemaDoc), sizeOf fs = n →
      sbeqFields fs fs = true) ∧
    (∀ bs : List SchemaDoc, sizeOf bs = n → sbeqList bs bs = true) := by
  intro n
  induction n using Nat.strong_induction_on with
  | _ n ih =>
    refine ⟨?_, ?_, ?_⟩
    · intro d hn
      cases d with
      | prim p l => simp [sbeq]
      | named nm => simp [sbeq]
      | record nm fs =>
        have hlt : sizeOf fs < n := by simp at hn; omega
        simp [sbeq, (ih _ hlt).2.1 fs rfl]
      | union bs =>
        have hlt : sizeOf bs < n := by simp at hn; omega
        simp [sbeq, (ih _ hlt).2.2 bs rfl]
      | array t =>
        have hlt : sizeOf t < n := by simp at hn; omega
        simp [sbeq, (ih _ hlt).1 t rfl]
    · intro fs hn
      cases fs with
      | nil => simp [sbeqFields]
      | cons f ftl =>
        obtain ⟨fn, fd, ft⟩ := f
        have hlt1 : sizeOf ft < n := by simp at hn; omega
        have hlt2 : sizeOf ftl < n := by simp at hn; omega
        simp [sbeqFields, (ih _ hlt1).1 ft rfl, (ih _ hlt2).2.1 ftl rfl]
    · intro bs hn
      cases bs with
      | nil => simp [sbeqList]
      | cons b btl =>
        have hlt1 : sizeOf b < n := by simp at hn; omega
        have hlt2 : sizeOf btl < n := by simp at hn; omega
        simp [sbeqList, (ih _ hlt1).1 b rfl, (ih _ hlt2).2.2 btl rfl]

theorem sbeq_refl (d : SchemaDoc) : sbeq d d = true :=
  (sbeq_refl_all (sizeOf d)).1 d rfl

/-! ## Registry Client (spec 4.2)

Modelled from the spec: the registry client is a thin protocol wrapper;
deduplication of byte-identical schema text under a subject is performed
by the registry service itself (the client does no local deduplication),
so the registry state below embodies the service's contract and every
`registerSchema` call reaches it. -/

/-- A registered schema version: subject, (shallow) schema text, and the
named references it was registered with. -/
structure RegEntry where
  subject : String
  node : SchemaDoc
  refs : List (String × Nat)

/-- Registry service state: entries keyed by globalId, plus the next
fresh id.  GlobalIds are 32-bit unsigned integers. -/
structure Registry where
  entries : List (Nat × RegEntry)
  nextId : Nat

/-- The empty registry. -/
def Registry.empty : Registry := { entries := [], nextId := 1 }

/-- Does this entry match a registration request byte-for-byte? -/
def entryMatches (subject : String) (node : SchemaDoc) (refs : List (String × Nat))
    (p : Nat × RegEntry) : Bool :=
  p.2.subject == subject && sbeq p.2.node node && p.2.refs == refs

/-- Look an entry up by globalId. -/
def regLookup (reg : Registry) (id : Nat) : Option RegEntry :=
  match reg.entries.find? (fun p => p.1 == id) with
  | some (_, e) => some e
  | none => none

/-- Modelled from the spec (4.2): `registerSchema(subject, schemaText,
references) -> globalId`.  Registering byte-identical schema text under
the same subject returns the existing globalId rather than creating a
duplicate; otherwise a fresh 32-bit globalId is allocated. -/
def registerSchema (reg : Registry) (subject : String) (node : SchemaDoc)
    (refs : List (String × Nat)) : Except SrctlError (Nat × Registry) :=
  match reg.entries.find? (entryMatches subject node refs) with
  | some (id, _) => .ok (id, reg)
  | none =>
    if reg.nextId < 2 ^ 32 then
      .ok (reg.nextId,
        { entries := reg.entries ++ [(reg.nextId, ⟨subject, node, refs⟩)],
          nextId := reg.nextId + 1 })
    else .error .idSpaceExhausted

/-- Registering the same schema text under the same subject twice gives
back the first call's globalId and leaves the registry unchanged. -/
theorem registerSchema_idempotent (reg reg' : Registry) (subject : String)
    (node : SchemaDoc) (refs : List (String × Nat)) (id : Nat)
    (h : registerSchema reg subject node refs = .ok (id, reg')) :
    registerSchema reg' subject node refs = .ok (id, reg') := by
  unfold registerSchema at h ⊢
  cases hf : reg.entries.find? (entryMatches subject node refs) with
  | some p =>
    obtain ⟨pid, pe⟩ := p
    rw [hf] at h
    simp only [Except.ok.injEq, Prod.mk.injEq] at h
    obtain ⟨rfl, rfl⟩ := h
    rw [hf]
  | none =>
    rw [hf] at h
    by_cases hsp : reg.nextId < 2 ^ 32
    · rw [if_pos hsp] at h
      simp only [Except.ok.injEq, Prod.mk.injEq] at h
      obtain ⟨rfl, rfl⟩ := h
      have hmatch : entryMatches subject node refs (reg.nextId, ⟨subject, node, refs⟩) = true := by
        simp [entryMatches, sbeq_refl]
      rw [List.find?_append, hf]
      simp [List.find?, hmatch]
    · rw [if_neg hsp] at h
      exact absurd h (by simp)

/-! ## Splitter (spec 4.1) and Schema Graph Model (spec section 3) -/

/-- Environment of named-schema definitions (first match wins). -/
def lookupEnv (env : List (String × SchemaDoc)) (n : String) : Option SchemaDoc :=
  match env.find? (fun p => p.1 == n) with
  | some (_, d) => some d
  | none => none

/-- The names of an environment / node list. -/
def namesOf (ns : List (String × SchemaDoc)) : List String := ns.map Prod.fst

mutual

/-- Modelled from the spec (4.1): lift every named record definition
reachable from the root into its own SchemaNode (post-order, so
dependencies precede dependents) and replace its inline occurrence with
a named reference.  Returns the stripped document and the extracted
nodes. -/
def extract : SchemaDoc → SchemaDoc × List (String × SchemaDoc)
  | .prim p l => (.prim p l, [])
  | .named n => (.named n, [])
  | .record n fs =>
    let (fs', ns) := extractFields fs
    (.named n, ns ++ [(n, .record n fs')])
  | .union bs =>
    let (bs', ns) := extractList bs
    (.union bs', ns)
  | .array t =>
    let (t', ns) := extract t
    (.array t', ns)

def extractFields : List (String × Option String × SchemaDoc) →
    List (String × Option String × SchemaDoc) × List (String × SchemaDoc)
  | [] => ([], [])
  | (nm, df, t) :: rest =>
    let (t', ns1) := extract t
    let (rest', ns2) := extractFields rest
    ((nm, df, t') :: rest', ns1 ++ ns2)

def extractList : List SchemaDoc → List SchemaDoc × List (String × SchemaDoc)
  | [] => ([], [])
  | b :: rest =>
    let (b', ns1) := extract b
    let (rest', ns2) := extractList rest
    (b' :: rest', ns1 ++ ns2)

end

mutual

/-- The named references occurring in a document (for a stripped node
body these are exactly its outbound reference edges). -/
def refNames : SchemaDoc → List String
  | .prim _ _ => []
  | .named n => [n]
  | .record _ fs => refNamesFields fs
  | .union bs => refNamesList bs
  | .array t => refNames t

def refNamesFields : List (String × Option String × SchemaDoc) → List String
  | [] => []
  | (_, _, t) :: rest => refNames t ++ refNamesFields rest

def refNamesList : List SchemaDoc → List String
  | [] => []
  | b :: rest => refNames b ++ refNamesList rest

end

mutual

/-- Substitute named references by their definitions from an environment
of already fully-expanded definitions; unknown (registry-external)
references are left in place. -/
def inline (env : List (String × SchemaDoc)) : SchemaDoc → SchemaDoc
  | .prim p l => .prim p l
  | .named n =>
    match lookupEnv env n with
    | some d => d
    | none => .named n
  | .record n fs => .record n (inlineFields env fs)
  | .union bs => .union (inlineList env bs)
  | .array t => .array (inline env t)

def inlineFields (env : List (String × SchemaDoc)) :
    List (String × Option String × SchemaDoc) →
    List (String × Option String × SchemaDoc)
  | [] => []
  | (nm, df, t) :: rest => (nm, df, inline env t) :: inlineFields env rest

def inlineList (env : List (String × SchemaDoc)) : List SchemaDoc → List SchemaDoc
  | [] => []
  | b :: rest => inline env b :: inlineList env rest

end

mutual

/-- Avro schema-equivalence normal form: traverse the document in
definition order, expanding every named reference to a previously
defined named type by its (already fully expanded) definition.  Two
documents are Avro-equivalent — same field names, field order, defaults
and logical types once references are resolved — exactly when they have
the same expansion.  Threads the growing definition environment. -/
def expandD (e : List (String × SchemaDoc)) :
    SchemaDoc → SchemaDoc × List (String × SchemaDoc)
  | .prim p l => (.prim p l, e)
  | .named n =>
    (match lookupEnv e n with
     | some d => d
     | none => .named n, e)
  | .record n fs =>
    let (fs', e') := expandFields e fs
    (.record n fs', e' ++ [(n, .record n fs')])
  | .union bs =>
    let (bs', e') := expandList e bs
    (.union bs', e')
  | .array t =>
    let (t', e') := expandD e t
    (.array t', e')

def expandFields (e : List (String × SchemaDoc)) :
    List (String × Option String × SchemaDoc) →
    List (String × Option String × SchemaDoc) × List (String × SchemaDoc)
  | [] => ([], e)
  | (nm, df, t) :: rest =>
    let (t', e1) := expandD e t
    let (rest', e2) := expandFields e1 rest
    ((nm, df, t') :: rest', e2)

def expandList (e : List (String × SchemaDoc)) :
    List SchemaDoc → List SchemaDoc × List (String × SchemaDoc)
  | [] => ([], e)
  | b :: rest =>
    let (b', e1) := expandD e b
    let (rest', e2) := expandList e1 rest
    (b' :: rest', e2)

end

/-- The canonical (fully reference-expanded) form of a schema document:
the representative of its Avro schema-equivalence class. -/
def canon (d : SchemaDoc) : SchemaDoc := (expandD [] d).1

mutual

/-- Modelled from the spec (3, 4.1): validate that every named reference
into the graph resolves — each use of an internal name must come after
that name's definition in definition order (in particular no reference
cycle can pass), while registry-external names pass through.  Threads
the list of names defined so far; `all` is the complete internal name
list. -/
def checkRefs (all : List String) :
    List String → SchemaDoc → Option (List String)
  | seen, .prim _ _ => some seen
  | seen, .named n =>
    if n ∈ all then (if n ∈ seen then some seen else none) else some seen
  | seen, .record n fs =>
    match checkRefsFields all seen fs with
    | some seen' => some (seen' ++ [n])
    | none => none
  | seen, .union bs => checkRefsList all seen bs
  | seen, .array t => checkRefs all seen t

def checkRefsFields (all : List String) :
    List String → List (String × Option String × SchemaDoc) → Option (List String)
  | seen, [] => some seen
  | seen, (_, _, t) :: rest =>
    match checkRefs all seen t with
    | some seen' => checkRefsFields all seen' rest
    | none => none

def checkRefsList (all : List String) :
    List String → List SchemaDoc → Option (List String)
  | seen, [] => some seen
  | seen, b :: rest =>
    match checkRefs all seen b with
    | some seen' => checkRefsList all seen' rest
    | none => none

end

/-- A Schema Graph: the stripped root document plus the extracted named
sub-schema nodes in dependency (definition) order. -/
structure SchemaGraph where
  root : SchemaDoc
  nodes : List (String × SchemaDoc)

/-- Modelled from the spec (4.1): `split(document) -> SchemaGraph`.
Fails with `SchemaError` if a named type has conflicting definitions
under the same fullname (duplicate fullnames) or if the reference graph
is not in resolvable definition order (in particular on any reference
cycle). -/
def split (D : SchemaDoc) : Except SrctlError SchemaGraph :=
  let (root, ns) := extract D
  if (namesOf ns).Nodup then
    match checkRefs (namesOf ns) [] D with
    | some _ => .ok ⟨root, ns⟩
    | none => .error .schemaError
  else .error .schemaError

/-- Fold the node list into an environment of fully inlined definitions,
dependencies first. -/
def buildEnv (env : List (String × SchemaDoc)) :
    List (String × SchemaDoc) → List (String × SchemaDoc)
  | [] => env
  | (n, b) :: rest => buildEnv (env ++ [(n, inline env b)]) rest

/-- Modelled from the spec (8): reassemble a SchemaGraph into a single
monolithic document by inlining every node's definition, dependencies
first. -/
def reassemble (g : SchemaGraph) : SchemaDoc :=
  inline (buildEnv [] g.nodes) g.root

/-! ### Environment lemmas -/

theorem lookupEnv_eq_none (e : List (String × SchemaDoc)) (m : String) :
    lookupEnv e m = none ↔ m ∉ namesOf e := by
  unfold lookupEnv namesOf
  cases hf : e.find? (fun p => p.1 == m) with
  | some p =>
    simp only [reduceCtorEq, false_iff, not_not]
    have := List.find?_some hf
    have hmem := List.mem_of_find?_eq_some hf
    simp only [beq_iff_eq] at this
    exact List.mem_map.mpr ⟨p, hmem, this⟩
  | none =>
    simp only [true_iff]
    intro hm
    obtain ⟨p, hp, hp1⟩ := List.mem_map.mp hm
    have := List.find?_eq_none.mp hf p hp
    simp [hp1] at this

theorem lookupEnv_mem (e : List (String × SchemaDoc)) (m : String)
    (h : m ∈ namesOf e) : ∃ v, lookupEnv e m = some v := by
  cases hl : lookupEnv e m with
  | some v => exact ⟨v, rfl⟩
  | none => exact absurd ((lookupEnv_eq_none e m).mp hl) (not_not_intro h)

theorem lookupEnv_append (e1 e2 : List (String × SchemaDoc)) (m : String) :
    lookupEnv (e1 ++ e2) m =
      match lookupEnv e1 m with
      | some v => some v
      | none => lookupEnv e2 m := by
  unfold lookupEnv
  rw [List.find?_append]
  cases h : e1.find? (fun p => p.1 == m) with
  | some p => simp [Option.or]
  | none => simp [Option.or]

theorem buildEnv_append (e : List (String × SchemaDoc))
    (ns1 ns2 : List (String × SchemaDoc)) :
    buildEnv e (ns1 ++ ns2) = buildEnv (buildEnv e ns1) ns2 := by
  induction ns1 generalizing e with
  | nil => simp [buildEnv]
  | cons x rest ih =>
    obtain ⟨n, b⟩ := x
    simp only [List.cons_append, buildEnv]
    exact ih _

theorem namesOf_buildEnv (e ns : List (String × SchemaDoc)) :
    namesOf (buildEnv e ns) = namesOf e ++ namesOf ns := by
  induction ns generalizing e with
  | nil => simp [buildEnv, namesOf]
  | cons x rest ih =>
    obtain ⟨n, b⟩ := x
    rw [buildEnv, ih]
    simp [namesOf]

theorem buildEnv_eq_append (e ns : List (String × SchemaDoc)) :
    ∃ tail, buildEnv e ns = e ++ tail ∧ namesOf tail = namesOf ns := by
  induction ns generalizing e with
  | nil => exact ⟨[], by simp [buildEnv], by simp [namesOf]⟩
  | cons x rest ih =>
    obtain ⟨n, b⟩ := x
    obtain ⟨tail, ht, hn⟩ := ih (e ++ [(n, inline e b)])
    refine ⟨(n, inline e b) :: tail, ?_, ?_⟩
    · simp only [buildEnv, ht, List.append_assoc, List.singleton_append]
    · simp only [namesOf, List.map_cons] at hn ⊢
      rw [hn]

theorem lookupEnv_buildEnv_stable (e ns : List (String × SchemaDoc)) (m : String)
    (h : m ∈ namesOf e ∨ m ∉ namesOf ns) :
    lookupEnv (buildEnv e ns) m = lookupEnv e m := by
  obtain ⟨tail, ht, hn⟩ := buildEnv_eq_append e ns
  rw [ht, lookupEnv_append]
  cases hl : lookupEnv e m with
  | some v => rfl
  | none =>
    have hm : m ∉ namesOf e := (lookupEnv_eq_none e m).mp hl
    have hns : m ∉ namesOf ns := h.resolve_left hm
    exact (lookupEnv_eq_none tail m).mpr (by rw [hn]; exact hns)

/-- Inlining only consults the environment at the document's reference
names, so two environments agreeing there inline identically. -/
theorem inlineAgree_all : ∀ n : Nat,
    (∀ (d : SchemaDoc) e1 e2, sizeOf d = n →
      (∀ m ∈ refNames d, lookupEnv e1 m = lookupEnv e2 m) →
      inline e1 d = inline e2 d) ∧
    (∀ (fs : List (String × Option String × SchemaDoc)) e1 e2, sizeOf fs = n →
      (∀ m ∈ refNamesFields fs, lookupEnv e1 m = lookupEnv e2 m) →
      inlineFields e1 fs = inlineFields e2 fs) ∧
    (∀ (bs : List SchemaDoc) e1 e2, sizeOf bs = n →
      (∀ m ∈ refNamesList bs, lookupEnv e1 m = lookupEnv e2 m) →
      inlineList e1 bs = inlineList e2 bs) := by
  intro n
  induction n using Nat.strong_induction_on with
  | _ n ih =>
    refine ⟨?_, ?_, ?_⟩
    · intro d e1 e2 hn hag
      cases d with
      | prim p l => rfl
      | named nm =>
        have := hag nm (by simp [refNames])
        simp only [inline, this]
      | record nm fs =>
        have hlt : sizeOf fs < n := by simp at hn; omega
        have := (ih _ hlt).2.1 fs e1 e2 rfl (fun m hm => hag m (by simpa [refNames] using hm))
        simp only [inline, this]
      | union bs =>
        have hlt : sizeOf bs < n := by simp at hn; omega
        have := (ih _ hlt).2.2 bs e1 e2 rfl (fun m hm => hag m (by simpa [refNames] using hm))
        simp only [inline, this]
      | array t =>
        have hlt : sizeOf t < n := by simp at hn; omega
        have := (ih _ hlt).1 t e1 e2 rfl (fun m hm => hag m (by simpa [refNames] using hm))
        simp only [inline, this]
    · intro fs e1 e2 hn hag
      cases fs with
      | nil => rfl
      | cons f rest =>
        obtain ⟨fn, fd, ft⟩ := f
        have hlt1 : sizeOf ft < n := by simp at hn; omega
        have hlt2 : sizeOf rest < n := by simp at hn; omega
        have h1 := (ih _ hlt1).1 ft e1 e2 rfl
          (fun m hm => hag m (by simp [refNamesFields]; exact Or.inl hm))
        have h2 := (ih _ hlt2).2.1 rest e1 e2 rfl
          (fun m hm => hag m (by simp [refNamesFields]; exact Or.inr hm))
        simp only [inlineFields, h1, h2]
    · intro bs e1 e2 hn hag
      cases bs with
      | nil => rfl
      | cons b rest =>
        have hlt1 : sizeOf b < n := by simp at hn; omega
        have hlt2 : sizeOf rest < n := by simp at hn; omega
        have h1 := (ih _ hlt1).1 b e1 e2 rfl
          (fun m hm => hag m (by simp [refNamesList]; exact Or.inl hm))
        have h2 := (ih _ hlt2).2.2 rest e1 e2 rfl
          (fun m hm => hag m (by simp [refNamesList]; exact Or.inr hm))
        simp only [inlineList, h1, h2]

theorem inlineAgree (d : SchemaDoc) (e1 e2 : List (String × SchemaDoc))
    (hag : ∀ m ∈ refNames d, lookupEnv e1 m = lookupEnv e2 m) :
    inline e1 d = inline e2 d :=
  (inlineAgree_all (sizeOf d)).1 d e1 e2 rfl hag

/-- What a successful reference check guarantees: the threaded
"seen" list advances by exactly the extracted node names, and every
internal reference of the stripped document is already defined. -/
theorem checkRefs_spec_all : ∀ n : Nat,
    (∀ (d : SchemaDoc) (all seen seen' : List String), sizeOf d = n →
      checkRefs all seen d = some seen' →
      seen' = seen ++ namesOf (extract d).2 ∧
        ∀ m ∈ refNames (extract d).1, m ∈ all → m ∈ seen') ∧
    (∀ (fs : List (String × Option String × SchemaDoc)) (all seen seen' : List String),
      sizeOf fs = n →
      checkRefsFields all seen fs = some seen' →
      seen' = seen ++ namesOf (extractFields fs).2 ∧
        ∀ m ∈ refNamesFields (extractFields fs).1, m ∈ all → m ∈ seen') ∧
    (∀ (bs : List SchemaDoc) (all seen seen' : List String), sizeOf bs = n →
      checkRefsList all seen bs = some seen' →
      seen' = seen ++ namesOf (extractList bs).2 ∧
        ∀ m ∈ refNamesList (extractList bs).1, m ∈ all → m ∈ seen') := by
  intro n
  induction n using Nat.strong_induction_on with
  | _ n ih =>
    refine ⟨?_, ?_, ?_⟩
    · intro d all seen seen' hn hck
      cases d with
      | prim p l =>
        simp only [checkRefs, Option.some.injEq] at hck
        subst hck
        exact ⟨by simp [extract, namesOf], by simp [extract, refNames]⟩
      | named nm =>
        simp only [checkRefs] at hck
        by_cases hall : nm ∈ all
        · rw [if_pos hall] at hck
          by_cases hseen : nm ∈ seen
          · rw [if_pos hseen] at hck
            simp only [Option.some.injEq] at hck
            subst hck
            refine ⟨by simp [extract, namesOf], ?_⟩
            intro m hm _
            simp [extract, refNames] at hm
            subst hm
            exact hseen
          · rw [if_neg hseen] at hck
            exact absurd hck (by simp)
        · rw [if_neg hall] at hck
          simp only [Option.some.injEq] at hck
          subst hck
          refine ⟨by simp [extract, namesOf], ?_⟩
          intro m hm hmall
          simp [extract, refNames] at hm
          subst hm
          exact absurd hmall hall
      | record nm fs =>
        simp only [checkRefs] at hck
        cases hckf : checkRefsFields all seen fs with
        | none => rw [hckf] at hck; exact absurd hck (by simp)
        | some s1 =>
          rw [hckf] at hck
          simp only [Option.some.injEq] at hck
          subst hck
          have hlt : sizeOf fs < n := by simp at hn; omega
          obtain ⟨hs1, _⟩ := (ih _ hlt).2.1 fs all seen s1 rfl hckf
          constructor
          · show s1 ++ [nm] = seen ++ namesOf (extract (.record nm fs)).2
            rcases hEF : extractFields fs with ⟨fsS, nsf⟩
            rw [hEF] at hs1
            simp only [extract, hEF]
            simp only [namesOf, List.map_append, List.map_cons, List.map_nil] at hs1 ⊢
            rw [hs1, List.append_assoc]
          · rcases hEF : extractFields fs with ⟨fsS, nsf⟩
            simp only [extract, hEF, refNames]
            intro m hm _
            simp at hm
            subst hm
            simp
      | union bs =>
        simp only [checkRefs] at hck
        have hlt : sizeOf bs < n := by simp at hn; omega
        obtain ⟨hs, href⟩ := (ih _ hlt).2.2 bs all seen seen' rfl hck
        rcases hE : extractList bs with ⟨bsS, ns⟩
        rw [hE] at hs href
        exact ⟨by simp only [extract, hE]; exact hs,
          by simp only [extract, hE, refNames]; exact href⟩
      | array t =>
        simp only [checkRefs] at hck
        have hlt : sizeOf t < n := by simp at hn; omega
        obtain ⟨hs, href⟩ := (ih _ hlt).1 t all seen seen' rfl hck
        rcases hE : extract t with ⟨tS, ns⟩
        rw [hE] at hs href
        exact ⟨by simp only [extract, hE]; exact hs,
          by simp only [extract, hE, refNames]; exact href⟩
    · intro fs all seen seen' hn hck
      cases fs with
      | nil =>
        simp only [checkRefsFields, Option.some.injEq] at hck
        subst hck
        exact ⟨by simp [extractFields, namesOf], by simp [extractFields, refNamesFields]⟩
      | cons f rest =>
        obtain ⟨fn, fd, ft⟩ := f
        simp only [checkRefsFields] at hck
        cases hck1 : checkRefs all seen ft with
        | none => rw [hck1] at hck; exact absurd hck (by simp)
        | some s1 =>
          rw [hck1] at hck
          have hlt1 : sizeOf ft < n := by simp at hn; omega
          have hlt2 : sizeOf rest < n := by simp at hn; omega
          obtain ⟨hs1, href1⟩ := (ih _ hlt1).1 ft all seen s1 rfl hck1
          obtain ⟨hs2, href2⟩ := (ih _ hlt2).2.1 rest all s1 seen' rfl hck
          rcases hE1 : extract ft with ⟨ftS, ns1⟩
          rcases hE2 : extractFields rest with ⟨restS, ns2⟩
          rw [hE1] at hs1 href1
          rw [hE2] at hs2 href2
          constructor
          · simp only [extractFields, hE1, hE2]
            simp only [namesOf, List.map_append] at hs1 hs2 ⊢
            rw [hs2, hs1, List.append_assoc]
          · simp only [extractFields, hE1, hE2, refNamesFields]
            intro m hm hmall
            rcases List.mem_append.mp hm with h1 | h2
            · have : m ∈ s1 := href1 m h1 hmall
              rw [hs2]
              exact List.mem_append_left _ this
            · exact href2 m h2 hmall
    · intro bs all seen seen' hn hck
      cases bs with
      | nil =>
        simp only [checkRefsList, Option.some.injEq] at hck
        subst hck
        exact ⟨by simp [extractList, namesOf], by simp [extractList, refNamesList]⟩
      | cons b rest =>
        simp only [checkRefsList] at hck
        cases hck1 : checkRefs all seen b with
        | none => rw [hck1] at hck; exact absurd hck (by simp)
        | some s1 =>
          rw [hck1] at hck
          have hlt1 : sizeOf b < n := by simp at hn; omega
          have hlt2 : sizeOf rest < n := by simp at hn; omega
          obtain ⟨hs1, href1⟩ := (ih _ hlt1).1 b all seen s1 rfl hck1
          obtain ⟨hs2, href2⟩ := (ih _ hlt2).2.2 rest all s1 seen' rfl hck
          rcases hE1 : extract b with ⟨bS, ns1⟩
          rcases hE2 : extractList rest with ⟨restS, ns2⟩
          rw [hE1] at hs1 href1
          rw [hE2] at hs2 href2
          constructor
          · simp only [extractList, hE1, hE2]
            simp only [namesOf, List.map_append] at hs1 hs2 ⊢
            rw [hs2, hs1, List.append_assoc]
          · simp only [extractList, hE1, hE2, refNamesList]
            intro m hm hmall
            rcases List.mem_append.mp hm with h1 | h2
            · have : m ∈ s1 := href1 m h1 hmall
              rw [hs2]
              exact List.mem_append_left _ this
            · exact href2 m h2 hmall

/-- Central correspondence: on a document whose references pass the
split-time check, canonical expansion coincides with extracting the
nodes, building the inlined environment dependencies-first, and inlining
the stripped document — i.e. reassembly computes the canonical form. -/
theorem splitExpand_all : ∀ n : Nat,
    (∀ (d : SchemaDoc) (all : List String) (e : List (String × SchemaDoc))
      (seen' : List String), sizeOf d = n →
      checkRefs all (namesOf e) d = some seen' →
      (namesOf e ++ namesOf (extract d).2).Nodup →
      namesOf (extract d).2 ⊆ all →
      expandD e d =
        (inline (buildEnv e (extract d).2) (extract d).1, buildEnv e (extract d).2)) ∧
    (∀ (fs : List (String × Option String × SchemaDoc)) (all : List String)
      (e : List (String × SchemaDoc)) (seen' : List String), sizeOf fs = n →
      checkRefsFields all (namesOf e) fs = some seen' →
      (namesOf e ++ namesOf (extractFields fs).2).Nodup →
      namesOf (extractFields fs).2 ⊆ all →
      expandFields e fs =
        (inlineFields (buildEnv e (extractFields fs).2) (extractFields fs).1,
          buildEnv e (extractFields fs).2)) ∧
    (∀ (bs : List SchemaDoc) (all : List String) (e : List (String × SchemaDoc))
      (seen' : List String), sizeOf bs = n →
      checkRefsList all (namesOf e) bs = some seen' →
      (namesOf e ++ namesOf (extractList bs).2).Nodup →
      namesOf (extractList bs).2 ⊆ all →
      expandList e bs =
        (inlineList (buildEnv e (extractList bs).2) (extractList bs).1,
          buildEnv e (extractList bs).2)) := by
  intro n
  induction n using Nat.strong_induction_on with
  | _ n ih =>
    refine ⟨?_, ?_, ?_⟩
    · intro d all e seen' hn hck hnd hsub
      cases d with
      | prim p l => rfl
      | named nm => rfl
      | record nm fs =>
        rcases hEF : extractFields fs with ⟨fsS, nsf⟩
        simp only [extract, hEF] at hnd hsub ⊢
        simp only [checkRefs] at hck
        cases hckf : checkRefsFields all (namesOf e) fs with
        | none => rw [hckf] at hck; exact absurd hck (by simp)
        | some s1 =>
          have hlt : sizeOf fs < n := by simp at hn; omega
          have hnd' : (namesOf e ++ namesOf (extractFields fs).2).Nodup := by
            rw [hEF]
            simp only [namesOf, List.map_append, List.map_cons, List.map_nil] at hnd
            refine hnd.sublist ?_
            rw [← List.append_assoc]
            exact (namesOf e ++ nsf.map Prod.fst).sublist_append_left _
          have hsub' : namesOf (extractFields fs).2 ⊆ all := by
            rw [hEF]
            intro m hm
            refine hsub ?_
            simp only [namesOf, List.map_append] at hm ⊢
            exact List.mem_append_left _ hm
          have hIH := (ih _ hlt).2.1 fs all e s1 rfl hckf hnd' hsub'
          rw [hEF] at hIH
          simp only at hIH
          have hnm : nm ∉ namesOf (buildEnv e nsf) := by
            rw [namesOf_buildEnv]
            simp only [namesOf, List.map_append, List.map_cons, List.map_nil] at hnd
            rw [← List.append_assoc] at hnd
            rw [List.nodup_append] at hnd
            intro hm
            exact hnd.2.2 hm (List.mem_singleton_self nm)
          simp only [expandD, hIH]
          rw [buildEnv_append]
          simp only [buildEnv, inline]
          have hlook : lookupEnv
              (buildEnv e nsf ++ [(nm, SchemaDoc.record nm (inlineFields (buildEnv e nsf) fsS))])
              nm = some (SchemaDoc.record nm (inlineFields (buildEnv e nsf) fsS)) := by
            rw [lookupEnv_append, (lookupEnv_eq_none _ _).mpr hnm]
            simp [lookupEnv]
          rw [hlook]
      | union bs =>
        rcases hEL : extractList bs with ⟨bsS, ns⟩
        simp only [extract, hEL] at hnd hsub ⊢
        simp only [checkRefs] at hck
        have hlt : sizeOf bs < n := by simp at hn; omega
        have hIH := (ih _ hlt).2.2 bs all e seen' rfl hck
          (by rw [hEL]; exact hnd) (by rw [hEL]; exact hsub)
        rw [hEL] at hIH
        simp only at hIH
        simp only [expandD, hIH, inline]
      | array t =>
        rcases hE : extract t with ⟨tS, ns⟩
        simp only [extract, hE] at hnd hsub ⊢
        simp only [checkRefs] at hck
        have hlt : sizeOf t < n := by simp at hn; omega
        have hIH := (ih _ hlt).1 t all e seen' rfl hck
          (by rw [hE]; exact hnd) (by rw [hE]; exact hsub)
        rw [hE] at hIH
        simp only at hIH
        simp only [expandD, hIH, inline]
    · intro fs all e seen' hn hck hnd hsub
      cases fs with
      | nil => rfl
      | cons f rest =>
        obtain ⟨fn, fd, ft⟩ := f
        rcases hE1 : extract ft with ⟨ftS, ns1⟩
        rcases hE2 : extractFields rest with ⟨restS, ns2⟩
        simp only [extractFields, hE1, hE2] at hnd hsub ⊢
        simp only [checkRefsFields] at hck
        cases hck1 : checkRefs all (namesOf e) ft with
        | none => rw [hck1] at hck; exact absurd hck (by simp)
        | some s1 =>
          rw [hck1] at hck
          have hlt1 : sizeOf ft < n := by simp at hn; omega
          have hlt2 : sizeOf rest < n := by simp at hn; omega
          obtain ⟨hs1, href1⟩ :=
            (checkRefs_spec_all (sizeOf ft)).1 ft all (namesOf e) s1 rfl hck1
          rw [hE1] at hs1 href1
          simp only at hs1 href1
          have hndsplit : (namesOf e ++ namesOf ns1 ++ namesOf ns2).Nodup := by
            simpa [namesOf, List.append_assoc] using hnd
          have hnd1 : (namesOf e ++ namesOf (extract ft).2).Nodup := by
            rw [hE1]
            exact hndsplit.sublist ((namesOf e ++ namesOf ns1).sublist_append_left _)
          have hsub1 : namesOf (extract ft).2 ⊆ all := by
            rw [hE1]
            intro m hm
            refine hsub ?_
            simp only [namesOf, List.map_append] at hm ⊢
            exact List.mem_append_left _ hm
          have hsub2 : namesOf ns2 ⊆ all := by
            intro m hm
            refine hsub ?_
            simp only [namesOf, List.map_append] at hm ⊢
            exact List.mem_append_right _ hm
          have hIH1 := (ih _ hlt1).1 ft all e s1 rfl hck1 hnd1 hsub1
          rw [hE1] at hIH1
          simp only at hIH1
          have hnames1 : namesOf (buildEnv e ns1) = s1 := by
            rw [namesOf_buildEnv, hs1]
          have hck2 : checkRefsFields all (namesOf (buildEnv e ns1)) rest = some seen' := by
            rw [hnames1]; exact hck
          have hnd2 : (namesOf (buildEnv e ns1) ++ namesOf (extractFields rest).2).Nodup := by
            rw [hE2, namesOf_buildEnv]
            simpa [List.append_assoc] using hndsplit
          have hsub2' : namesOf (extractFields rest).2 ⊆ all := by
            rw [hE2]; exact hsub2
          have hIH2 := (ih _ hlt2).2.1 rest all (buildEnv e ns1) seen' rfl hck2 hnd2 hsub2'
          rw [hE2] at hIH2
          simp only at hIH2
          rw [← buildEnv_append] at hIH2
          have hagree : inline (buildEnv e ns1) ftS = inline (buildEnv e (ns1 ++ ns2)) ftS := by
            refine inlineAgree ftS _ _ ?_
            intro m hm
            rw [buildEnv_append]
            refine (lookupEnv_buildEnv_stable (buildEnv e ns1) ns2 m ?_).symm
            by_cases hall : m ∈ all
            · left
              rw [hnames1]
              exact href1 m hm hall
            · right
              intro hm2
              exact hall (hsub2 hm2)
          simp only [expandFields, hIH1, hIH2, inlineFields]
          rw [hagree]
    · intro bs all e seen' hn hck hnd hsub
      cases bs with
      | nil => rfl
      | cons b rest =>
        rcases hE1 : extract b with ⟨bS, ns1⟩
        rcases hE2 : extractList rest with ⟨restS, ns2⟩
        simp only [extractList, hE1, hE2] at hnd hsub ⊢
        simp only [checkRefsList] at hck
        cases hck1 : checkRefs all (namesOf e) b with
        | none => rw [hck1] at hck; exact absurd hck (by simp)
        | some s1 =>
          rw [hck1] at hck
          have hlt1 : sizeOf b < n := by simp at hn; omega
          have hlt2 : sizeOf rest < n := by simp at hn; omega
          obtain ⟨hs1, href1⟩ :=
            (checkRefs_spec_all (sizeOf b)).1 b all (namesOf e) s1 rfl hck1
          rw [hE1] at hs1 href1
          simp only at hs1 href1
          have hndsplit : (namesOf e ++ namesOf ns1 ++ namesOf ns2).Nodup := by
            simpa [namesOf, List.append_assoc] using hnd
          have hnd1 : (namesOf e ++ namesOf (extract b).2).Nodup := by
            rw [hE1]
            exact hndsplit.sublist ((namesOf e ++ namesOf ns1).sublist_append_left _)
          have hsub1 : namesOf (extract b).2 ⊆ all := by
            rw [hE1]
            intro m hm
            refine hsub ?_
            simp only [namesOf, List.map_append] at hm ⊢
            exact List.mem_append_left _ hm
          have hsub2 : namesOf ns2 ⊆ all := by
            intro m hm
            refine hsub ?_
            simp only [namesOf, List.map_append] at hm ⊢
            exact List.mem_append_right _ hm
          have hIH1 := (ih _ hlt1).1 b all e s1 rfl hck1 hnd1 hsub1
          rw [hE1] at hIH1
          simp only at hIH1
          have hnames1 : namesOf (buildEnv e ns1) = s1 := by
            rw [namesOf_buildEnv, hs1]
          have hck2 : checkRefsList all (namesOf (buildEnv e ns1)) rest = some seen' := by
            rw [hnames1]; exact hck
          have hnd2 : (namesOf (buildEnv e ns1) ++ namesOf (extractList rest).2).Nodup := by
            rw [hE2, namesOf_buildEnv]
            simpa [List.append_assoc] using hndsplit
          have hsub2' : namesOf (extractList rest).2 ⊆ all := by
            rw [hE2]; exact hsub2
          have hIH2 := (ih _ hlt2).2.2 rest all (buildEnv e ns1) seen' rfl hck2 hnd2 hsub2'
          rw [hE2] at hIH2
          simp only at hIH2
          rw [← buildEnv_append] at hIH2
          have hagree : inline (buildEnv e ns1) bS = inline (buildEnv e (ns1 ++ ns2)) bS := by
            refine inlineAgree bS _ _ ?_
            intro m hm
            rw [buildEnv_append]
            refine (lookupEnv_buildEnv_stable (buildEnv e ns1) ns2 m ?_).symm
            by_cases hall : m ∈ all
            · left
              rw [hnames1]
              exact href1 m hm hall
            · right
              intro hm2
              exact hall (hsub2 hm2)
          simp only [expandList, hIH1, hIH2, inlineList]
          rw [hagree]

/-- Reassembling the graph produced by a successful split yields exactly
the canonical (reference-expanded) form of the original document. -/
theorem reassemble_split (D : SchemaDoc) (g : SchemaGraph)
    (h : split D = .ok g) : reassemble g = canon D := by
  unfold split at h
  rcases hE : extract D with ⟨root, ns⟩
  rw [hE] at h
  simp only at h
  by_cases hnd : (namesOf ns).Nodup
  · rw [if_pos hnd] at h
    cases hck : checkRefs (namesOf ns) [] D with
    | none => rw [hck] at h; exact absurd h (by simp)
    | some s =>
      rw [hck] at h
      simp only [Except.ok.injEq] at h
      subst h
      have hck' : checkRefs (namesOf ns) (namesOf ([] : List (String × SchemaDoc))) D
          = some s := hck
      have hmain := (splitExpand_all (sizeOf D)).1 D (namesOf ns) [] s rfl hck'
        (by rw [hE]; simpa [namesOf] using hnd)
        (by rw [hE]; exact fun m hm => hm)
      rw [hE] at hmain
      simp only at hmain
      unfold reassemble canon
      rw [hmain]
  · rw [if_neg hnd] at h
    exact absurd h (by simp)

/-! ### Cycle rejection (spec 4.1, 8, 9) -/

/-- Dependencies-before-dependents: every internal reference of each
node refers to a name defined before it. -/
def WellOrdered (all : List String) : List String → List (String × SchemaDoc) → Prop
  | _, [] => True
  | seen, (k, b) :: rest =>
    (∀ m ∈ refNames b, m ∈ all → m ∈ seen) ∧ WellOrdered all (seen ++ [k]) rest

theorem wellOrdered_append (all : List String) (seen : List String)
    (ns1 ns2 : List (String × SchemaDoc)) :
    WellOrdered all seen (ns1 ++ ns2) ↔
      WellOrdered all seen ns1 ∧ WellOrdered all (seen ++ namesOf ns1) ns2 := by
  induction ns1 generalizing seen with
  | nil => simp [WellOrdered, namesOf]
  | cons x rest ih =>
    obtain ⟨k, b⟩ := x
    show WellOrdered all seen ((k, b) :: (rest ++ ns2)) ↔ _
    simp only [WellOrdered]
    rw [ih]
    simp only [namesOf, List.map_cons]
    rw [show seen ++ k :: List.map Prod.fst rest = (seen ++ [k]) ++ List.map Prod.fst rest
      by simp]
    tauto

/-- A successful reference check orders the extracted nodes
dependencies-first. -/
theorem checkRefs_wellOrdered_all : ∀ n : Nat,
    (∀ (d : SchemaDoc) (all seen seen' : List String), sizeOf d = n →
      checkRefs all seen d = some seen' → WellOrdered all seen (extract d).2) ∧
    (∀ (fs : List (String × Option String × SchemaDoc)) (all seen seen' : List String),
      sizeOf fs = n →
      checkRefsFields all seen fs = some seen' → WellOrdered all seen (extractFields fs).2) ∧
    (∀ (bs : List SchemaDoc) (all seen seen' : List String), sizeOf bs = n →
      checkRefsList all seen bs = some seen' → WellOrdered all seen (extractList bs).2) := by
  intro n
  induction n using Nat.strong_induction_on with
  | _ n ih =>
    refine ⟨?_, ?_, ?_⟩
    · intro d all seen seen' hn hck
      cases d with
      | prim p l => simp [extract, WellOrdered]
      | named nm => simp [extract, WellOrdered]
      | record nm fs =>
        rcases hEF : extractFields fs with ⟨fsS, nsf⟩
        simp only [extract, hEF]
        simp only [checkRefs] at hck
        cases hckf : checkRefsFields all seen fs with
        | none => rw [hckf] at hck; exact absurd hck (by simp)
        | some s1 =>
          have hlt : sizeOf fs < n := by simp at hn; omega
          have hWO := (ih _ hlt).2.1 fs all seen s1 rfl hckf
          rw [hEF] at hWO
          obtain ⟨hs1, href⟩ :=
            (checkRefs_spec_all (sizeOf fs)).2.1 fs all seen s1 rfl hckf
          rw [hEF] at hs1 href
          simp only at hs1 href hWO
          rw [wellOrdered_append]
          refine ⟨hWO, ?_, trivial⟩
          intro m hm hmall
          rw [← hs1]
          exact href m (by simpa [refNames] using hm) hmall
      | union bs =>
        rcases hEL : extractList bs with ⟨bsS, ns⟩
        simp only [extract, hEL]
        simp only [checkRefs] at hck
        have hlt : sizeOf bs < n := by simp at hn; omega
        have := (ih _ hlt).2.2 bs all seen seen' rfl hck
        rw [hEL] at this
        exact this
      | array t =>
        rcases hE : extract t with ⟨tS, ns⟩
        simp only [extract, hE]
        simp only [checkRefs] at hck
        have hlt : sizeOf t < n := by simp at hn; omega
        have := (ih _ hlt).1 t all seen seen' rfl hck
        rw [hE] at this
        exact this
    · intro fs all seen seen' hn hck
      cases fs with
      | nil => simp [extractFields, WellOrdered]
      | cons f rest =>
        obtain ⟨fn, fd, ft⟩ := f
        rcases hE1 : extract ft with ⟨ftS, ns1⟩
        rcases hE2 : extractFields rest with ⟨restS, ns2⟩
        simp only [extractFields, hE1, hE2]
        simp only [checkRefsFields] at hck
        cases hck1 : checkRefs all seen ft with
        | none => rw [hck1] at hck; exact absurd hck (by simp)
        | some s1 =>
          rw [hck1] at hck
          have hlt1 : sizeOf ft < n := by simp at hn; omega
          have hlt2 : sizeOf rest < n := by simp at hn; omega
          have hWO1 := (ih _ hlt1).1 ft all seen s1 rfl hck1
          rw [hE1] at hWO1
          have hWO2 := (ih _ hlt2).2.1 rest all s1 seen' rfl hck
          rw [hE2] at hWO2
          obtain ⟨hs1, _⟩ :=
            (checkRefs_spec_all (sizeOf ft)).1 ft all seen s1 rfl hck1
          rw [hE1] at hs1
          simp only at hs1 hWO1 hWO2
          rw [wellOrdered_append]
          exact ⟨hWO1, by rw [← hs1]; exact hWO2⟩
    · intro bs all seen seen' hn hck
      cases bs with
      | nil => simp [extractList, WellOrdered]
      | cons b rest =>
        rcases hE1 : extract b with ⟨bS, ns1⟩
        rcases hE2 : extractList rest with ⟨restS, ns2⟩
        simp only [extractList, hE1, hE2]
        simp only [checkRefsList] at hck
        cases hck1 : checkRefs all seen b with
        | none => rw [hck1] at hck; exact absurd hck (by simp)
        | some s1 =>
          rw [hck1] at hck
          have hlt1 : sizeOf b < n := by simp at hn; omega
          have hlt2 : sizeOf rest < n := by simp at hn; omega
          have hWO1 := (ih _ hlt1).1 b all seen s1 rfl hck1
          rw [hE1] at hWO1
          have hWO2 := (ih _ hlt2).2.2 rest all s1 seen' rfl hck
          rw [hE2] at hWO2
          obtain ⟨hs1, _⟩ :=
            (checkRefs_spec_all (sizeOf b)).1 b all seen s1 rfl hck1
          rw [hE1] at hs1
          simp only at hs1 hWO1 hWO2
          rw [wellOrdered_append]
          exact ⟨hWO1, by rw [← hs1]; exact hWO2⟩

theorem indexOf_append_left_lt (v : String) (seen X : List String) (h : v ∈ seen) :
    List.indexOf v (seen ++ X) < seen.length := by
  induction seen with
  | nil => simp at h
  | cons s rest ih =>
    by_cases hv : s = v
    · subst hv
      simp [List.indexOf_cons_self]
    · rcases List.mem_cons.mp h with h1 | h2
      · exact absurd h1.symm hv
      · rw [List.cons_append, List.indexOf_cons_ne _ hv]
        simpa using ih h2

theorem indexOf_append_cons_self (k : String) (seen X : List String) (h : k ∉ seen) :
    List.indexOf k (seen ++ k :: X) = seen.length := by
  induction seen with
  | nil => simp [List.indexOf_cons_self]
  | cons s rest ih =>
    have hs : s ≠ k := fun he => h (by rw [he]; exact List.mem_cons_self _ _)
    rw [List.cons_append, List.indexOf_cons_ne _ hs]
    have := ih (fun hm => h (List.mem_cons_of_mem _ hm))
    simp [this]

/-- In a well-ordered node list with distinct names, every internal
reference edge goes from a later-defined name to an earlier-defined
one. -/
theorem wellOrdered_rank (all : List String) :
    ∀ (ns : List (String × SchemaDoc)) (seen : List String),
      WellOrdered all seen ns → (seen ++ namesOf ns).Nodup →
      ∀ p ∈ ns, ∀ v ∈ refNames p.2, v ∈ all → v ∈ seen ++ namesOf ns →
        List.indexOf v (seen ++ namesOf ns) < List.indexOf p.1 (seen ++ namesOf ns) := by
  intro ns
  induction ns with
  | nil => intro seen _ _ p hp; simp at hp
  | cons x rest ih =>
    obtain ⟨k, b⟩ := x
    intro seen hWO hnd p hp v hv hvall hvmem
    obtain ⟨h1, h2⟩ := hWO
    have hknotseen : k ∉ seen := by
      simp only [namesOf, List.map_cons, List.nodup_append] at hnd
      intro hk
      exact hnd.2.2 hk (List.mem_cons_self _ _)
    rcases List.mem_cons.mp hp with hph | hpt
    · subst hph
      simp only
      have hvseen : v ∈ seen := h1 v hv hvall
      have hlt := indexOf_append_left_lt v seen (namesOf ((k, b) :: rest)) hvseen
      have hk : List.indexOf k (seen ++ namesOf ((k, b) :: rest)) = seen.length := by
        simp only [namesOf, List.map_cons]
        exact indexOf_append_cons_self k seen _ hknotseen
      rw [hk]
      exact hlt
    · have hlist : (seen ++ [k]) ++ namesOf rest = seen ++ namesOf ((k, b) :: rest) := by
        simp [namesOf]
      have hnd' : ((seen ++ [k]) ++ namesOf rest).Nodup := by rw [hlist]; exact hnd
      have := ih (seen ++ [k]) h2 hnd' p hpt v hv hvall (by rw [hlist]; exact hvmem)
      rw [hlist] at this
      exact this

/-- An internal reference edge of the extracted node list: node `u`
references node `v` of the same graph. -/
def Edge (ns : List (String × SchemaDoc)) (u v : String) : Prop :=
  ∃ b, (u, b) ∈ ns ∧ v ∈ refNames b ∧ v ∈ namesOf ns

/-- A cycle in the reference graph: a nonempty chain of edges returning
to its starting node. -/
def IsCycle (ns : List (String × SchemaDoc)) : List String → Prop
  | [] => False
  | x :: xs => List.Chain (Edge ns) x (xs ++ [x])

theorem chain_rank_lt {R : String → String → Prop} {f : String → Nat}
    (hR : ∀ u v, R u v → f v < f u) :
    ∀ (l : List String) (a b : String), List.Chain R a (l ++ [b]) → f b < f a := by
  intro l
  induction l with
  | nil =>
    intro a b hch
    rw [List.nil_append, List.chain_cons] at hch
    exact hR a b hch.1
  | cons c rest ih =>
    intro a b hch
    rw [List.cons_append, List.chain_cons] at hch
    exact (ih c b hch.2).trans (hR a c hch.1)

/-- If the reference graph of the extracted nodes contains a cycle, the
split-time reference check cannot succeed. -/
theorem isCycle_split_error (D : SchemaDoc) (l : List String)
    (hcyc : IsCycle (extract D).2 l) :
    split D = .error .schemaError := by
  rcases hE : extract D with ⟨root, ns⟩
  rw [hE] at hcyc
  unfold split
  rw [hE]
  simp only
  by_cases hnd : (namesOf ns).Nodup
  · rw [if_pos hnd]
    cases hck : checkRefs (namesOf ns) [] D with
    | none => rfl
    | some s =>
      exfalso
      have hWO := (checkRefs_wellOrdered_all (sizeOf D)).1 D (namesOf ns) [] s rfl hck
      rw [hE] at hWO
      have hrank := wellOrdered_rank (namesOf ns) ns [] hWO (by simpa using hnd)
      have hedge : ∀ u v, Edge ns u v →
          List.indexOf v (namesOf ns) < List.indexOf u (namesOf ns) := by
        intro u v he
        obtain ⟨b, hmem, href, hvin⟩ := he
        have := hrank (u, b) hmem v href hvin (by simpa using hvin)
        simpa using this
      cases l with
      | nil => exact hcyc
      | cons x xs =>
        have := chain_rank_lt hedge xs x x hcyc
        omega
  · rw [if_neg hnd]

/-! ## Reference Resolver / Cache (spec 4.4) -/

/-- Resolver state: the memoized cache of resolved schemas keyed by
globalId, plus a count of registry fetches issued (the spec's
fetch-count instrumentation). -/
structure ResolverState where
  cache : List (Nat × SchemaDoc)
  fetches : Nat

/-- A fresh resolver. -/
def ResolverState.empty : ResolverState := { cache := [], fetches := 0 }

/-- Cache lookup by globalId. -/
def cacheLookup (st : ResolverState) (id : Nat) : Option SchemaDoc :=
  match st.cache.find? (fun p => p.1 == id) with
  | some (_, s) => some s
  | none => none

mutual

/-- Modelled from the spec (4.4): fetch schema + references for a
globalId, recursively resolve each reference (memoized by globalId),
then compile the node against its resolved dependencies.  Recursion is
fuel-bounded; exhausting the fuel is the defensive `ReferenceCycle`
failure.  Every registry access counts as one fetch; cache hits fetch
nothing. -/
def resolveGo (reg : Registry) : Nat → ResolverState → Nat →
    Except SrctlError SchemaDoc × ResolverState
  | 0, st, _ => (.error .referenceCycle, st)
  | fuel + 1, st, id =>
    match cacheLookup st id with
    | some s => (.ok s, st)
    | none =>
      match regLookup reg id with
      | none => (.error .unknownId, { st with fetches := st.fetches + 1 })
      | some entry =>
        match resolveRefs reg fuel { st with fetches := st.fetches + 1 } entry.refs with
        | (.ok env, st2) =>
          (.ok (inline env entry.node),
            { st2 with cache := (id, inline env entry.node) :: st2.cache })
        | (.error e, st2) => (.error e, st2)

def resolveRefs (reg : Registry) : Nat → ResolverState → List (String × Nat) →
    Except SrctlError (List (String × SchemaDoc)) × ResolverState
  | _, st, [] => (.ok [], st)
  | fuel, st, (nm, rid) :: rest =>
    match resolveGo reg fuel st rid with
    | (.ok s, st1) =>
      match resolveRefs reg fuel st1 rest with
      | (.ok env, st2) => (.ok ((nm, s) :: env), st2)
      | (.error e, st2) => (.error e, st2)
    | (.error e, st1) => (.error e, st1)

end

/-- Modelled from the spec (4.4): `resolve(globalId) -> ResolvedSchema`,
memoized by globalId.  The fuel bound `id + 1` suffices for every
registry the Registrar builds (references always point to
smaller globalIds), and hitting it reports `ReferenceCycle`
defensively. -/
def resolve (reg : Registry) (st : ResolverState) (id : Nat) :
    Except SrctlError SchemaDoc × ResolverState :=
  resolveGo reg (id + 1) st id

/-- Modelled from the spec: the explicit `invalidate(globalId)` hook —
the only way a cache entry is ever removed (there is no time-based
eviction in the model, matching the spec's "never proactively
invalidated by time"). -/
def invalidate (st : ResolverState) (id : Nat) : ResolverState :=
  { st with cache := st.cache.filter (fun p => p.1 != id) }

/-! ## Wire Codec end-to-end (spec 4.5) -/

/-- Modelled from the spec (4.5): `encode(globalId, record) -> bytes`:
resolve the id, Avro-encode the record against the resolved schema,
prepend the wire envelope. -/
def encodeMsg (reg : Registry) (st : ResolverState) (id : Nat) (v : AvroValue) :
    Except SrctlError (List Nat) × ResolverState :=
  match resolve reg st id with
  | (.ok s, st1) =>
    match encodeVal s v with
    | some payload => (.ok (frame id payload), st1)
    | none => (.error .schemaMismatch, st1)
  | (.error e, st1) => (.error e, st1)

/-- Modelled from the spec (4.5): `decode(bytes) -> (globalId, record)`:
read the envelope header, resolve the extracted id, Avro-decode the
remaining bytes. -/
def decodeMsg (reg : Registry) (st : ResolverState) (bs : List Nat) :
    Except SrctlError (Nat × AvroValue) × ResolverState :=
  match unframe bs with
  | .error e => (.error e, st)
  | .ok (id, payload) =>
    match resolve reg st id with
    | (.ok s, st1) =>
      match decodeVal s payload with
      | some (v, []) => (.ok (id, v), st1)
      | some (_, _ :: _) => (.error .schemaMismatch, st1)
      | none => (.error .schemaMismatch, st1)
    | (.error e, st1) => (.error e, st1)

/-! ## Registrar (spec 4.3) -/

/-- Modelled from the spec (4.3): walk the graph's nodes in dependency
order, registering each node with the already-obtained globalIds of its
dependencies as its references list (subjects derived from fullnames);
counts registry network calls. -/
def registerGraph (reg : Registry) (mapping : List (String × Nat)) (calls : Nat) :
    List (String × SchemaDoc) →
    Except SrctlError (Registry × List (String × Nat)) × Nat
  | [] => (.ok (reg, mapping), calls)
  | (n, b) :: rest =>
    let refs := (refNames b).filterMap (fun m =>
      match mapping.find? (fun p => p.1 == m) with
      | some (_, rid) => some (m, rid)
      | none => none)
    match registerSchema reg n b refs with
    | .ok (id, reg') => registerGraph reg' (mapping ++ [(n, id)]) (calls + 1) rest
    | .error e => (.error e, calls + 1)

/-- Modelled from the spec (section 2): the one-time setup control flow
Splitter → Registrar → Registry, instrumented with the number of
registry network calls performed. -/
def splitAndRegister (D : SchemaDoc) (reg : Registry) :
    Except SrctlError (Registry × List (String × Nat)) × Nat :=
  match split D with
  | .ok g => registerGraph reg [] 0 g.nodes
  | .error e => (.error e, 0)

/-! ### Resolver cache lemmas -/

/-- A successful resolution leaves its result in the cache under its
globalId. -/
theorem resolveGo_ok_cached (reg : Registry) (fuel : Nat) (st : ResolverState)
    (id : Nat) (s : SchemaDoc) (st' : ResolverState)
    (h : resolveGo reg fuel st id = (.ok s, st')) : cacheLookup st' id = some s := by
  cases fuel with
  | zero => simp [resolveGo] at h
  | succ fuel =>
    rw [resolveGo] at h
    cases hc : cacheLookup st id with
    | some s0 =>
      simp only [hc, Prod.mk.injEq, Except.ok.injEq] at h
      obtain ⟨rfl, rfl⟩ := h
      exact hc
    | none =>
      simp only [hc] at h
      cases hr : regLookup reg id with
      | none => simp only [hr] at h; simp at h
      | some entry =>
        simp only [hr] at h
        rcases hrr : resolveRefs reg fuel { st with fetches := st.fetches + 1 } entry.refs
          with ⟨res, st2⟩
        simp only [hrr] at h
        cases res with
        | error e => simp at h
        | ok env =>
          simp only [Prod.mk.injEq, Except.ok.injEq] at h
          obtain ⟨rfl, rfl⟩ := h
          simp [cacheLookup]

/-- A cache hit resolves immediately: same result, unchanged state — in
particular no registry fetch. -/
theorem resolve_cached_hit (reg : Registry) (st : ResolverState) (id : Nat)
    (s : SchemaDoc) (h : cacheLookup st id = some s) :
    resolve reg st id = (.ok s, st) := by
  unfold resolve
  rw [resolveGo, h]

/-- Invalidation removes the entry for the given id. -/
theorem cacheLookup_invalidate (st : ResolverState) (id : Nat) :
    cacheLookup (invalidate st id) id = none := by
  unfold cacheLookup invalidate
  cases hf : (st.cache.filter (fun p => p.1 != id)).find? (fun p => p.1 == id) with
  | none => rfl
  | some p =>
    exfalso
    have h1 := List.find?_some hf
    have h2 := List.mem_of_find?_eq_some hf
    have h3 := (List.mem_filter.mp h2).2
    simp only [bne_iff_ne, ne_eq, decide_eq_true_eq] at h3
    simp only [beq_iff_eq] at h1
    exact h3 h1

/-! ### Registrar invariants and resolution success -/

/-- Registry sanity established by the Registrar: ids are 32-bit, every
entry's references point to strictly smaller, registered ids. -/
def RegInv (reg : Registry) : Prop :=
  reg.nextId ≤ 2 ^ 32 ∧
  ∀ p ∈ reg.entries, p.1 < reg.nextId ∧
    ∀ q ∈ p.2.refs, q.2 < p.1 ∧ (regLookup reg q.2).isSome

/-- Every id the Registrar has handed out is registered and 32-bit. -/
def MappingOK (reg : Registry) (mapping : List (String × Nat)) : Prop :=
  ∀ p ∈ mapping, p.2 < reg.nextId ∧ (regLookup reg p.2).isSome

theorem regLookup_isSome_of_mem (reg : Registry) (id : Nat) (e : RegEntry)
    (h : (id, e) ∈ reg.entries) : (regLookup reg id).isSome := by
  unfold regLookup
  cases hf : reg.entries.find? (fun p => p.1 == id) with
  | some p => simp
  | none =>
    have := List.find?_eq_none.mp hf (id, e) h
    simp at this

theorem regLookup_mem (reg : Registry) (id : Nat) (e : RegEntry)
    (h : regLookup reg id = some e) : (id, e) ∈ reg.entries := by
  unfold regLookup at h
  cases hf : reg.entries.find? (fun p => p.1 == id) with
  | none => rw [hf] at h; simp at h
  | some p =>
    rw [hf] at h
    simp only [Option.some.injEq] at h
    have h1 := List.find?_some hf
    have h2 := List.mem_of_find?_eq_some hf
    simp only [beq_iff_eq] at h1
    have : p = (id, e) := by
      obtain ⟨p1, p2⟩ := p
      simp only at h1 h
      rw [h1, h]
    rw [← this]
    exact h2

/-- What a successful registration did: either it deduplicated to an
existing entry, or it appended a fresh one. -/
theorem registerSchema_cases (reg : Registry) (subject : String) (node : SchemaDoc)
    (refs : List (String × Nat)) (id : Nat) (reg' : Registry)
    (h : registerSchema reg subject node refs = .ok (id, reg')) :
    (reg' = reg ∧ ∃ e, (id, e) ∈ reg.entries) ∨
    (id = reg.nextId ∧ reg.nextId < 2 ^ 32 ∧
      reg'.entries = reg.entries ++ [(reg.nextId, ⟨subject, node, refs⟩)] ∧
      reg'.nextId = reg.nextId + 1) := by
  unfold registerSchema at h
  cases hf : reg.entries.find? (entryMatches subject node refs) with
  | some p =>
    rw [hf] at h
    obtain ⟨pid, pe⟩ := p
    simp only [Except.ok.injEq, Prod.mk.injEq] at h
    obtain ⟨rfl, rfl⟩ := h
    exact Or.inl ⟨rfl, pe, List.mem_of_find?_eq_some hf⟩
  | none =>
    rw [hf] at h
    by_cases hsp : reg.nextId < 2 ^ 32
    · rw [if_pos hsp] at h
      simp only [Except.ok.injEq, Prod.mk.injEq] at h
      obtain ⟨rfl, rfl⟩ := h
      exact Or.inr ⟨rfl, hsp, rfl, rfl⟩
    · rw [if_neg hsp] at h
      exact absurd h (by simp)

theorem regLookup_append (reg : Registry) (tail : List (Nat × RegEntry)) (i : Nat) (e : RegEntry)
    (h : regLookup reg i = some e) :
    regLookup { entries := reg.entries ++ tail, nextId := reg.nextId + 1 } i = some e := by
  unfold regLookup at h ⊢
  rw [List.find?_append]
  cases hf : reg.entries.find? (fun p => p.1 == i) with
  | none => rw [hf] at h; simp at h
  | some p => rw [hf] at h; simp only [Option.or_some]; exact h

theorem regLookup_isSome_append (reg : Registry) (tail : List (Nat × RegEntry)) (i : Nat)
    (h : (regLookup reg i).isSome) :
    (regLookup { entries := reg.entries ++ tail, nextId := reg.nextId + 1 } i).isSome := by
  cases hl : regLookup reg i with
  | none => rw [hl] at h; simp at h
  | some e => rw [regLookup_append reg tail i e hl]; simp

/-- A successful registration preserves the registry invariant, yields a
registered 32-bit id, grows `nextId` monotonically and keeps every
previously registered id registered. -/
theorem registerSchema_preserves (reg : Registry) (subject : String) (node : SchemaDoc)
    (refs : List (String × Nat)) (id : Nat) (reg' : Registry)
    (h : registerSchema reg subject node refs = .ok (id, reg'))
    (hinv : RegInv reg)
    (hrefs : ∀ q ∈ refs, q.2 < reg.nextId ∧ (regLookup reg q.2).isSome) :
    RegInv reg' ∧ id < reg'.nextId ∧ (regLookup reg' id).isSome ∧
      reg.nextId ≤ reg'.nextId ∧
      (∀ i, (regLookup reg i).isSome → (regLookup reg' i).isSome) := by
  rcases registerSchema_cases reg subject node refs id reg' h with
    ⟨rfl, e, hmem⟩ | ⟨rfl, hsp, hent, hnext⟩
  · exact ⟨hinv, (hinv.2 (id, e) hmem).1, regLookup_isSome_of_mem _ id e hmem,
      le_refl _, fun _ hi => hi⟩
  · obtain ⟨ents', nid'⟩ := reg'
    simp only at hent hnext
    subst hent hnext
    have hmono : ∀ i, (regLookup reg i).isSome →
        (regLookup ⟨reg.entries ++ [(reg.nextId, ⟨subject, node, refs⟩)], reg.nextId + 1⟩
          i).isSome :=
      fun i hi => regLookup_isSome_append reg _ i hi
    refine ⟨⟨by show reg.nextId + 1 ≤ 2 ^ 32; omega, ?_⟩,
      by show reg.nextId < reg.nextId + 1; omega, ?_,
      by show reg.nextId ≤ reg.nextId + 1; omega, hmono⟩
    · intro p hp
      rcases List.mem_append.mp hp with hold | hnew
      · obtain ⟨h1, h2⟩ := hinv.2 p hold
        refine ⟨by show p.1 < reg.nextId + 1; omega, ?_⟩
        intro q hq
        exact ⟨(h2 q hq).1, hmono q.2 (h2 q hq).2⟩
      · simp only [List.mem_singleton] at hnew
        subst hnew
        refine ⟨by show reg.nextId < reg.nextId + 1; omega, ?_⟩
        intro q hq
        exact ⟨(hrefs q hq).1, hmono q.2 (hrefs q hq).2⟩
    · apply regLookup_isSome_of_mem _ reg.nextId ⟨subject, node, refs⟩
      simp

/-- Folding the Registrar over a node list preserves the registry
invariant and the mapping invariant. -/
theorem registerGraph_inv :
    ∀ (ns : List (String × SchemaDoc)) (reg : Registry) (mapping : List (String × Nat))
      (calls : Nat) (reg' : Registry) (mapping' : List (String × Nat)) (calls' : Nat),
      registerGraph reg mapping calls ns = (.ok (reg', mapping'), calls') →
      RegInv reg → MappingOK reg mapping →
      RegInv reg' ∧ MappingOK reg' mapping' := by
  intro ns
  induction ns with
  | nil =>
    intro reg mapping calls reg' mapping' calls' h hinv hmap
    simp only [registerGraph, Prod.mk.injEq, Except.ok.injEq] at h
    obtain ⟨⟨rfl, rfl⟩, rfl⟩ := h
    exact ⟨hinv, hmap⟩
  | cons x rest ih =>
    intro reg mapping calls reg' mapping' calls' h hinv hmap
    obtain ⟨n, b⟩ := x
    rw [registerGraph] at h
    cases hreg : registerSchema reg n b ((refNames b).filterMap (fun m =>
      match mapping.find? (fun p => p.1 == m) with
      | some (_, rid) => some (m, rid)
      | none => none)) with
    | error e => rw [hreg] at h; simp at h
    | ok p =>
      obtain ⟨id, reg1⟩ := p
      rw [hreg] at h
      have hrefs : ∀ q ∈ (refNames b).filterMap (fun m =>
          match mapping.find? (fun p => p.1 == m) with
          | some (_, rid) => some (m, rid)
          | none => none), q.2 < reg.nextId ∧ (regLookup reg q.2).isSome := by
        intro q hq
        obtain ⟨m, _, hfm⟩ := List.mem_filterMap.mp hq
        cases hfind : mapping.find? (fun p => p.1 == m) with
        | none => rw [hfind] at hfm; simp at hfm
        | some pr =>
          obtain ⟨m', rid⟩ := pr
          rw [hfind] at hfm
          simp only [Option.some.injEq] at hfm
          have hmem := List.mem_of_find?_eq_some hfind
          have := hmap (m', rid) hmem
          subst hfm
          exact this
      obtain ⟨hinv1, hid1, hsome1, hmono1, hkeep1⟩ :=
        registerSchema_preserves reg n b _ id reg1 hreg hinv hrefs
      have hmap1 : MappingOK reg1 (mapping ++ [(n, id)]) := by
        intro p hp
        rcases List.mem_append.mp hp with hold | hnew
        · obtain ⟨h1, h2⟩ := hmap p hold
          exact ⟨lt_of_lt_of_le h1 hmono1, hkeep1 p.2 h2⟩
        · simp only [List.mem_singleton] at hnew
          subst hnew
          exact ⟨hid1, hsome1⟩
      exact ih reg1 (mapping ++ [(n, id)]) (calls + 1) reg' mapping' calls' h hinv1 hmap1

/-- Every registered id resolves: with the Registrar's invariants, the
resolver's recursion always succeeds (given fuel at least `id + 1`,
which `resolve` supplies). -/
theorem resolveGo_success (reg : Registry) (hinv : RegInv reg) :
    ∀ id, (regLookup reg id).isSome →
      ∀ fuel, id + 1 ≤ fuel → ∀ st, ∃ s st', resolveGo reg fuel st id = (.ok s, st') := by
  intro id
  induction id using Nat.strong_induction_on with
  | _ id ih =>
    intro hsome fuel hfuel st
    obtain ⟨fuel', rfl⟩ : ∃ f', fuel = f' + 1 := ⟨fuel - 1, by omega⟩
    cases hc : cacheLookup st id with
    | some s => exact ⟨s, st, by rw [resolveGo, hc]⟩
    | none =>
      cases hr : regLookup reg id with
      | none => rw [hr] at hsome; simp at hsome
      | some entry =>
        have hmem := regLookup_mem reg id entry hr
        have hrefsOK : ∀ q ∈ entry.refs, q.2 < id ∧ (regLookup reg q.2).isSome :=
          fun q hq => (hinv.2 (id, entry) hmem).2 q hq
        have hrr : ∀ refs, (∀ q ∈ refs, q.2 < id ∧ (regLookup reg q.2).isSome) →
            ∀ st0, ∃ env st2, resolveRefs reg fuel' st0 refs = (.ok env, st2) := by
          intro refs
          induction refs with
          | nil => exact fun _ st0 => ⟨[], st0, by rw [resolveRefs]⟩
          | cons q rest ihr =>
            intro hq st0
            obtain ⟨nm, rid⟩ := q
            have h1 := hq (nm, rid) (List.mem_cons_self _ _)
            obtain ⟨s1, st1, hres1⟩ := ih rid h1.1 h1.2 fuel' (by omega) st0
            obtain ⟨env, st2, hres2⟩ := ihr (fun q' hq' => hq q' (List.mem_cons_of_mem _ hq')) st1
            exact ⟨(nm, s1) :: env, st2, by rw [resolveRefs]; simp only [hres1, hres2]⟩
        obtain ⟨env, st2, hres⟩ := hrr entry.refs hrefsOK { st with fetches := st.fetches + 1 }
        exact ⟨inline env entry.node, ⟨(id, inline env entry.node) :: st2.cache, st2.fetches⟩,
          by rw [resolveGo]; simp only [hc, hr, hres]⟩

/-! ## Single-flight resolution (spec section 5)

Modelled from the spec: the concurrency discipline for one unresolved
globalId is embedded as an interleaving transition system.  Any number
of callers may interleave their steps; a caller that finds no resolution
in flight issues the fetch, every other caller waits for the completed
result and shares it. -/

/-- Per-id resolution station: nothing started, one fetch in flight, or
completed with its result. -/
inductive FlightStatus where
  | idle
  | inFlight
  | done (r : SchemaDoc)

/-- Single-flight state for one unresolved globalId: station status,
registry fetches issued so far (fetch-count instrumentation), and the
results delivered to callers so far. -/
structure SfState where
  status : FlightStatus
  fetchCount : Nat
  delivered : List SchemaDoc

/-- Modelled from the spec (5, 9): the interleaved events.  `start`: a
caller finds the station idle and issues the one fetch; `complete`: the
in-flight fetch finishes; `deliver`: a caller (the fetcher or any
waiter) receives the completed shared result.  No rule lets a caller
fetch while a resolution is in flight or done — it subscribes
instead. -/
inductive SfStep : SfState → SfState → Prop where
  | start (f : Nat) (d : List SchemaDoc) :
      SfStep ⟨.idle, f, d⟩ ⟨.inFlight, f + 1, d⟩
  | complete (r : SchemaDoc) (f : Nat) (d : List SchemaDoc) :
      SfStep ⟨.inFlight, f, d⟩ ⟨.done r, f, d⟩
  | deliver (r : SchemaDoc) (f : Nat) (d : List SchemaDoc) :
      SfStep ⟨.done r, f, d⟩ ⟨.done r, f, r :: d⟩

/-- States reachable from the initial (unresolved, never-fetched)
state by any interleaving of caller steps. -/
inductive SfReach : SfState → Prop where
  | init : SfReach ⟨.idle, 0, []⟩
  | step {s s' : SfState} : SfReach s → SfStep s s' → SfReach s'

/-- The single-flight invariant: the fetch count tracks the station
status, and every delivered result is the completed one. -/
theorem sf_invariant (s : SfState) (h : SfReach s) :
    (s.status = .idle → s.fetchCount = 0) ∧
    (s.status ≠ .idle → s.fetchCount = 1) ∧
    (∀ r ∈ s.delivered, s.status = .done r) := by
  induction h with
  | init => exact ⟨fun _ => rfl, fun hne => absurd rfl hne, fun r hr => by simp at hr⟩
  | step hreach hstep ih =>
    cases hstep with
    | start f d =>
      obtain ⟨h1, _, h3⟩ := ih
      have hf : f = 0 := h1 rfl
      subst hf
      exact ⟨fun h => by simp at h, fun _ => rfl,
        fun r hr => absurd (h3 r hr) (by simp)⟩
    | complete r f d =>
      obtain ⟨_, h2, h3⟩ := ih
      have hf : f = 1 := h2 (by simp)
      subst hf
      exact ⟨fun h => by simp at h, fun _ => rfl,
        fun r' hr' => absurd (h3 r' hr') (by simp)⟩
    | deliver r f d =>
      obtain ⟨_, h2, h3⟩ := ih
      have hf : f = 1 := h2 (by simp)
      subst hf
      refine ⟨fun h => by simp at h, fun _ => rfl, ?_⟩
      intro r' hr'
      rcases List.mem_cons.mp hr' with h | h
      · rw [h]
      · exact h3 r' h

/-! ## The demo scripts (the code under `examples/split-demo/sample-app`) -/

/-- Python-dict-shaped values as built by the demo scripts.  Decimal
numeric literals are modelled as rationals. -/
inductive PyVal where
  | none
  | str (s : String)
  | int (n : Nat)
  | num (q : ℚ)
  | dict (kvs : List (String × PyVal))
  | list (xs : List PyVal)

/-- Python `d[key]` on a dict value (first binding wins, as in a
Python dict literal without duplicate keys). -/
def pyGet (v : PyVal) (key : String) : Option PyVal :=
  match v with
  | .dict kvs =>
    match kvs.find? (fun p => p.1 == key) with
    | some (_, x) => some x
    | none => none
  | _ => none

/-- Python `len(v)` on a list value. -/
def pyListLen (v : PyVal) : Option Nat :=
  match v with
  | .list xs => some xs.length
  | _ => none

/-- Python `v[i]` on a list value. -/
def pyIdx (v : PyVal) (i : Nat) : Option PyVal :=
  match v with
  | .list xs => xs[i]?
  | _ => none

/-- `create_sample_order` from `producer.py` (lines 51–98), field for
field.  The run-dependent parts — `str(uuid.uuid4())` for the order id,
`datetime.now().isoformat()` for the order date, and the first eight
characters of the transaction uuid — are taken as parameters. -/
def create_sample_order (orderId orderDate txnSuffix : String) : PyVal :=
  .dict [
    ("orderId", .str orderId),
    ("orderDate", .str orderDate),
    ("status", .str "PENDING"),
    ("customer", .dict [
      ("customerId", .str "CUST-001"),
      ("firstName", .str "Jane"),
      ("lastName", .str "Doe"),
      ("email", .str "jane.doe@example.com"),
      ("phone", .dict [("string", .str "+1-555-0100")]),
      ("billingAddress", .dict [
        ("street", .str "123 Main St"),
        ("street2", .none),
        ("city", .str "Springfield"),
        ("state", .str "IL"),
        ("zip", .str "62701"),
        ("country", .str "US")]),
      ("shippingAddress", .none)]),
    ("items", .list [
      .dict [
        ("productId", .str "PROD-001"),
        ("productName", .str "Widget A"),
        ("quantity", .int 2),
        ("unitPrice", .dict [("amount", .num (2999 / 100)), ("currency", .str "USD")]),
        ("discount", .none)],
      .dict [
        ("productId", .str "PROD-002"),
        ("productName", .str "Widget B"),
        ("quantity", .int 1),
        ("unitPrice", .dict [("amount", .num (4999 / 100)), ("currency", .str "USD")]),
        ("discount", .dict [("com.example.types.Money",
          .dict [("amount", .num 5), ("currency", .str "USD")])])]]),
    ("subtotal", .dict [("amount", .num (10997 / 100)), ("currency", .str "USD")]),
    ("tax", .dict [("amount", .num (880 / 100)), ("currency", .str "USD")]),
    ("total", .dict [("amount", .num (11877 / 100)), ("currency", .str "USD")]),
    ("payment", .dict [
      ("method", .str "CREDIT_CARD"),
      ("transactionId", .dict [("string", .str ("TXN-" ++ txnSuffix))]),
      ("amount", .dict [("amount", .num (11877 / 100)), ("currency", .str "USD")])]),
    ("notes", .none)]

/-- One loop iteration's input to the consumer (`consumer.py`,
lines 55–80): `poll` returned nothing, a message-level error, a
deserialized message (possibly `None`), or the user's
KeyboardInterrupt. -/
inductive PollEvent where
  | timeout
  | consumerError (e : String)
  | message (order : Option PyVal)
  | interrupt

/-- Observable actions of a consumer run. -/
inductive ConsumerAction where
  | printOrder (o : PyVal)
  | printError (e : String)
  | printShutdown
  | close

/-- The consumer's `while True` loop body, iterated over the incoming
events: `msg is None` → continue; `msg.error()` → print the error and
continue; deserialized `None` → skipped (the `if order is not None`
guard); otherwise print the order.  A KeyboardInterrupt leaves the loop
through the `except` branch, printing the shutdown notice; remaining
events are never seen. -/
def runLoop : List PollEvent → List ConsumerAction
  | [] => []
  | .timeout :: rest => runLoop rest
  | .consumerError e :: rest => .printError e :: runLoop rest
  | .message .none :: rest => runLoop rest
  | .message (.some o) :: rest => .printOrder o :: runLoop rest
  | .interrupt :: _ => [.printShutdown]

/-- `main` of `consumer.py`: the polling loop wrapped in
`try/except KeyboardInterrupt/finally: consumer.close()` — whatever
path leaves the loop, the `finally` closes the consumer before `main`
returns. -/
def consumerMain (evs : List PollEvent) : List ConsumerAction :=
  runLoop evs ++ [.close]

/-- Number of `close` actions in a trace. -/
def countClose (l : List ConsumerAction) : Nat :=
  (l.filter (fun a => match a with | .close => true | _ => false)).length

theorem runLoop_no_close (evs : List PollEvent) : countClose (runLoop evs) = 0 := by
  induction evs with
  | nil => rfl
  | cons e rest ih =>
    cases e with
    | timeout => simpa [runLoop] using ih
    | consumerError msg => simpa [runLoop, countClose, List.filter] using ih
    | message o =>
      cases o with
      | none => simpa [runLoop] using ih
      | some v => simpa [runLoop, countClose, List.filter] using ih
    | interrupt => rfl

theorem runLoop_skip_none (pre post : List PollEvent) :
    runLoop (pre ++ .message .none :: post) = runLoop (pre ++ post) := by
  induction pre with
  | nil => rfl
  | cons e rest ih =>
    cases e with
    | timeout => simpa [runLoop] using ih
    | consumerError msg => simp [runLoop, ih]
    | message o =>
      cases o with
      | none => simpa [runLoop] using ih
      | some v => simp [runLoop, ih]
    | interrupt => rfl

/-! ## Claim theorems -/

/-- C1: for every globalId returned by the Registrar and every record
valid for the schema it resolves to, `resolve(id)` succeeds and the Wire
Codec round-trips: decoding the encoding of `(id, r)` yields `(id, r)`
back, field for field. -/
theorem claim_C1_registrar_resolve_roundtrip
    (reg0 : Registry) (ns : List (String × SchemaDoc)) (reg : Registry)
    (mp : List (String × Nat)) (calls : Nat) (n : String) (id : Nat)
    (hinv : RegInv reg0)
    (hreg : registerGraph reg0 [] 0 ns = (.ok (reg, mp), calls))
    (hmem : (n, id) ∈ mp) :
    ∃ s st1, resolve reg ResolverState.empty id = (.ok s, st1) ∧
      ∀ v, validFor s v = true →
        ∃ bs, encodeMsg reg ResolverState.empty id v = (.ok bs, st1) ∧
          decodeMsg reg st1 bs = (.ok (id, v), st1) := by
  have hmap0 : MappingOK reg0 [] := fun p hp => absurd hp (List.not_mem_nil p)
  obtain ⟨hinvR, hmapR⟩ := registerGraph_inv ns reg0 [] 0 reg mp calls hreg hinv hmap0
  obtain ⟨hidlt, hidsome⟩ := hmapR (n, id) hmem
  obtain ⟨s, st1, hres⟩ :=
    resolveGo_success reg hinvR id hidsome (id + 1) (le_refl _) ResolverState.empty
  have hres' : resolve reg ResolverState.empty id = (.ok s, st1) := hres
  refine ⟨s, st1, hres', ?_⟩
  intro v hv
  obtain ⟨payload, henc, hdec⟩ := avro_roundTrip s v hv []
  have hcached := resolveGo_ok_cached reg (id + 1) ResolverState.empty id s st1 hres
  have hhit := resolve_cached_hit reg st1 id s hcached
  have hid32 : id < 2 ^ 32 := lt_of_lt_of_le hidlt hinvR.1
  have hd2 : decodeVal s payload = some (v, []) := by simpa using hdec
  refine ⟨frame id payload, ?_, ?_⟩
  · simp only [encodeMsg, hres', henc]
  · simp only [decodeMsg, unframe_frame id hid32 payload, hhit, hd2]

/-- Node list for the C1 witness: a three-level split schema
(`Address` ← `Customer` ← `Order`) in dependency order. -/
def wC1nodes : List (String × SchemaDoc) :=
  [("Address", .record "Address" [("street", Option.none, .prim .pstring Option.none)]),
   ("Customer", .record "Customer"
     [("name", Option.none, .prim .pstring Option.none),
      ("addr", Option.none, .named "Address")]),
   ("Order", .record "Order"
     [("cust", Option.none, .named "Customer"),
      ("total", Option.none, .prim .plong Option.none)])]

/-- The registry the Registrar builds from `wC1nodes`. -/
def wC1reg : Registry :=
  ⟨[(1, ⟨"Address",
       .record "Address" [("street", Option.none, .prim .pstring Option.none)], []⟩),
    (2, ⟨"Customer",
       .record "Customer"
         [("name", Option.none, .prim .pstring Option.none),
          ("addr", Option.none, .named "Address")], [("Address", 1)]⟩),
    (3, ⟨"Order",
       .record "Order"
         [("cust", Option.none, .named "Customer"),
          ("total", Option.none, .prim .plong Option.none)], [("Customer", 2)]⟩)], 4⟩

/-- The fullname → globalId mapping the Registrar returns for
`wC1nodes`. -/
def wC1mp : List (String × Nat) := [("Address", 1), ("Customer", 2), ("Order", 3)]

theorem claim_C1_witness :
    RegInv Registry.empty ∧
    registerGraph Registry.empty [] 0 wC1nodes = (.ok (wC1reg, wC1mp), 3) ∧
    ("Order", 3) ∈ wC1mp ∧
    (∃ s st1, resolve wC1reg ResolverState.empty 3 = (.ok s, st1) ∧
      ∀ v, validFor s v = true →
        ∃ bs, encodeMsg wC1reg ResolverState.empty 3 v = (.ok bs, st1) ∧
          decodeMsg wC1reg st1 bs = (.ok (3, v), st1)) := by
  have hinv : RegInv Registry.empty := by
    refine ⟨by norm_num [Registry.empty], ?_⟩
    intro p hp
    simp [Registry.empty] at hp
  refine ⟨hinv, rfl, by decide, ?_⟩
  exact claim_C1_registrar_resolve_roundtrip Registry.empty wC1nodes wC1reg wC1mp 3 "Order" 3
    hinv rfl (by decide)

/-- C2: reassembling the SchemaGraph produced by a successful
`split(D)` yields a schema Avro-equivalent to `D`: it equals `D`'s
canonical form, the document with every internal named reference
expanded, which preserves field names, field order, default values and
logical-type annotations.  (Split rejects exactly the documents — with
conflicting fullnames or unresolvable/cyclic references — for which no
SchemaGraph is produced.) -/
theorem claim_C2_split_reassemble (D : SchemaDoc) (g : SchemaGraph)
    (h : split D = .ok g) : reassemble g = canon D :=
  reassemble_split D g h

/-- Document for the C2 witness: a nested order schema in which
`Address` is defined inline once (inside `Customer`) and referenced
again by name — the multi-use case splitting exists for. -/
def wC2doc : SchemaDoc :=
  .record "Order"
    [("buyer", Option.none, .record "Customer"
        [("home", Option.none, .record "Address"
            [("street", Option.none, .prim .pstring Option.none)])]),
     ("ship", Option.none, .named "Address"),
     ("fee", Option.none, .prim .plong (Option.some "fee-units"))]

/-- The SchemaGraph `split` produces from `wC2doc`. -/
def wC2graph : SchemaGraph :=
  ⟨.named "Order",
   [("Address", .record "Address" [("street", Option.none, .prim .pstring Option.none)]),
    ("Customer", .record "Customer" [("home", Option.none, .named "Address")]),
    ("Order", .record "Order"
      [("buyer", Option.none, .named "Customer"),
       ("ship", Option.none, .named "Address"),
       ("fee", Option.none, .prim .plong (Option.some "fee-units"))])]⟩

theorem claim_C2_witness :
    split wC2doc = .ok wC2graph ∧ reassemble wC2graph = canon wC2doc :=
  ⟨rfl, claim_C2_split_reassemble wC2doc wC2graph rfl⟩

/-- C3: the byte sequence produced by `encode(globalId, record)` has
exactly the documented layout — byte 0 is the reserved format marker,
bytes 1–4 are the globalId in big-endian unsigned 32-bit form, and the
remaining bytes are the Avro binary encoding of the record — and
`decode`'s header reader reads back exactly this framing. -/
theorem claim_C3_wire_layout (reg : Registry) (st : ResolverState) (id : Nat)
    (v : AvroValue) (bs : List Nat) (st1 : ResolverState)
    (hid : id < 2 ^ 32)
    (h : encodeMsg reg st id v = (.ok bs, st1)) :
    ∃ s payload, (resolve reg st id).1 = .ok s ∧ encodeVal s v = some payload ∧
      bs = FORMAT_MARKER :: (be32 id ++ payload) ∧
      unframe bs = .ok (id, payload) := by
  unfold encodeMsg at h
  rcases hres : resolve reg st id with ⟨res, st'⟩
  rw [hres] at h
  cases res with
  | error e => simp at h
  | ok s =>
    cases henc : encodeVal s v with
    | none => simp only [henc] at h; simp at h
    | some payload =>
      simp only [henc, Prod.mk.injEq, Except.ok.injEq] at h
      obtain ⟨rfl, rfl⟩ := h
      exact ⟨s, payload, rfl, henc, rfl, unframe_frame id hid payload⟩

/-- The resolver state after resolving id 1 against `wC3reg`: the result
cached, one fetch recorded. -/
def wC3state : ResolverState := ⟨[(1, .prim .pnull Option.none)], 1⟩

/-- Registry for the framing/caching witnesses: one registered schema
under globalId 1. -/
def wC3reg : Registry := ⟨[(1, ⟨"S", .prim .pnull Option.none, []⟩)], 2⟩

theorem claim_C3_witness :
    1 < 2 ^ 32 ∧
    encodeMsg wC3reg ResolverState.empty 1 .vnull = (.ok [0, 0, 0, 0, 1], wC3state) ∧
    ∃ s payload, (resolve wC3reg ResolverState.empty 1).1 = .ok s ∧
      encodeVal s .vnull = some payload ∧
      ([0, 0, 0, 0, 1] : List Nat) = FORMAT_MARKER :: (be32 1 ++ payload) ∧
      unframe [0, 0, 0, 0, 1] = .ok (1, payload) := by
  have henc : encodeMsg wC3reg ResolverState.empty 1 .vnull
      = (.ok [0, 0, 0, 0, 1], wC3state) := by
    simp [encodeMsg, resolve, resolveGo, resolveRefs, cacheLookup, regLookup,
      wC3reg, wC3state, ResolverState.empty, encodeVal, inline, frame, be32, FORMAT_MARKER]
  exact ⟨by norm_num, henc,
    claim_C3_wire_layout wC3reg ResolverState.empty 1 .vnull [0, 0, 0, 0, 1] wC3state
      (by norm_num) henc⟩

/-- C4: decoding any buffer shorter than the wire-envelope header, or
whose first byte is not the recognized format marker, fails with
`MalformedEnvelope` — a returned error value, never a panic (the
decoder is a total function). -/
theorem claim_C4_malformed_envelope (reg : Registry) (st : ResolverState)
    (bs : List Nat)
    (h : bs.length < 5 ∨ bs.head? ≠ some FORMAT_MARKER) :
    decodeMsg reg st bs = (.error .malformedEnvelope, st) := by
  have hm : unframe bs = .error .malformedEnvelope := by
    rcases h with h | h
    · exact unframe_short bs h
    · exact unframe_badMarker bs h
  simp only [decodeMsg, hm]

theorem claim_C4_witness :
    (([1, 2, 3] : List Nat).length < 5 ∨ ([1, 2, 3] : List Nat).head? ≠ some FORMAT_MARKER) ∧
    decodeMsg wC3reg ResolverState.empty [1, 2, 3] =
      (.error .malformedEnvelope, ResolverState.empty) :=
  ⟨Or.inl (by norm_num),
   claim_C4_malformed_envelope wC3reg ResolverState.empty [1, 2, 3] (Or.inl (by norm_num))⟩

/-- C5: registering byte-identical schema text under the same subject
twice returns the first call's globalId both times, leaving the registry
unchanged — the deduplication is the modelled registry service's own
contract (the thin client forwards every call; it keeps no local
deduplication state that could diverge from the server's view). -/
theorem claim_C5_register_idempotent (reg reg' : Registry) (subject : String)
    (node : SchemaDoc) (refs : List (String × Nat)) (id : Nat)
    (h : registerSchema reg subject node refs = .ok (id, reg')) :
    registerSchema reg' subject node refs = .ok (id, reg') :=
  registerSchema_idempotent reg reg' subject node refs id h

/-- The registry after the first registration in the C5 witness. -/
def wC5reg : Registry := ⟨[(1, ⟨"orders-value", .prim .pnull Option.none, []⟩)], 2⟩

theorem claim_C5_witness :
    registerSchema Registry.empty "orders-value" (.prim .pnull Option.none) []
        = .ok (1, wC5reg) ∧
      registerSchema wC5reg "orders-value" (.prim .pnull Option.none) [] = .ok (1, wC5reg) :=
  ⟨rfl, claim_C5_register_idempotent Registry.empty wC5reg "orders-value"
    (.prim .pnull Option.none) [] 1 rfl⟩

/-- C6: a document whose extracted reference graph contains a cycle is
rejected by the Splitter with `SchemaError`, and the
Splitter → Registrar pipeline performs zero registry network calls on
it — the cyclic graph never reaches the Registrar. -/
theorem claim_C6_cycle_rejected_before_network (D : SchemaDoc) (l : List String)
    (reg : Registry) (h : IsCycle (extract D).2 l) :
    split D = .error .schemaError ∧
      splitAndRegister D reg = (.error .schemaError, 0) := by
  have hsplit := isCycle_split_error D l h
  exact ⟨hsplit, by unfold splitAndRegister; rw [hsplit]⟩

/-- A directly self-referential record: the smallest cyclic reference
graph. -/
def wC6doc : SchemaDoc :=
  .record "A" [("self", Option.none, .named "A")]

theorem claim_C6_witness :
    IsCycle (extract wC6doc).2 ["A"] ∧
    (split wC6doc = .error .schemaError ∧
      splitAndRegister wC6doc Registry.empty = (.error .schemaError, 0)) := by
  have hedge : Edge (extract wC6doc).2 "A" "A" := by
    refine ⟨.record "A" [("self", Option.none, .named "A")], ?_, ?_, ?_⟩
    · simp [wC6doc, extract, extractFields]
    · simp [refNames, refNamesFields]
    · simp [wC6doc, extract, extractFields, namesOf]
  have hcyc : IsCycle (extract wC6doc).2 ["A"] := List.Chain.cons hedge List.Chain.nil
  exact ⟨hcyc, claim_C6_cycle_rejected_before_network wC6doc ["A"] Registry.empty hcyc⟩

/-- C7: after a successful `resolve(id)` the result is cached under that
id; a subsequent `resolve(id)` returns the cached ResolvedSchema with
the state — in particular the registry fetch count — unchanged, so no
fetch is issued; and the entry leaves the cache only through the
explicit `invalidate(id)` hook (the model has no time-based eviction at
all). -/
theorem claim_C7_resolve_memoized (reg : Registry) (st : ResolverState) (id : Nat)
    (s : SchemaDoc) (st' : ResolverState)
    (h : resolve reg st id = (.ok s, st')) :
    cacheLookup st' id = some s ∧
      resolve reg st' id = (.ok s, st') ∧
      (resolve reg st' id).2.fetches = st'.fetches ∧
      cacheLookup (invalidate st' id) id = none := by
  have hcached := resolveGo_ok_cached reg (id + 1) st id s st' h
  have hhit := resolve_cached_hit reg st' id s hcached
  exact ⟨hcached, hhit, by rw [hhit], cacheLookup_invalidate st' id⟩

theorem claim_C7_witness :
    resolve wC3reg ResolverState.empty 1 = (.ok (.prim .pnull Option.none), wC3state) ∧
    (cacheLookup wC3state 1 = some (.prim .pnull Option.none) ∧
      resolve wC3reg wC3state 1 = (.ok (.prim .pnull Option.none), wC3state) ∧
      (resolve wC3reg wC3state 1).2.fetches = wC3state.fetches ∧
      cacheLookup (invalidate wC3state 1) 1 = none) := by
  have hres : resolve wC3reg ResolverState.empty 1
      = (.ok (.prim .pnull Option.none), wC3state) := by
    simp [resolve, resolveGo, resolveRefs, cacheLookup, regLookup,
      wC3reg, wC3state, ResolverState.empty, inline]
  refine ⟨hres, ?_⟩
  exact claim_C7_resolve_memoized wC3reg ResolverState.empty 1 (.prim .pnull Option.none)
    wC3state hres

/-- C8: in the single-flight transition system for one unresolved
globalId, every reachable state has issued at most one registry fetch,
and every result delivered to a caller is the one completed resolution's
result, delivered in a state with exactly one fetch — so any number of
concurrent `resolve` calls for the same id share one underlying fetch
and never re-issue it. -/
theorem claim_C8_single_flight (s : SfState) (h : SfReach s) :
    s.fetchCount ≤ 1 ∧
      ∀ r ∈ s.delivered, s.status = .done r ∧ s.fetchCount = 1 := by
  obtain ⟨h1, h2, h3⟩ := sf_invariant s h
  constructor
  · rcases hst : s.status with _ | _ | r
    · have := h1 hst; omega
    · have := h2 (by rw [hst]; simp); omega
    · have := h2 (by rw [hst]; simp); omega
  · intro r hr
    refine ⟨h3 r hr, h2 ?_⟩
    rw [h3 r hr]
    simp

/-- The C8 witness run: two concurrent callers — the first starts the
fetch, it completes, both callers receive the shared result. -/
def wC8state : SfState :=
  ⟨.done (.prim .pnull Option.none), 1,
    [.prim .pnull Option.none, .prim .pnull Option.none]⟩

theorem claim_C8_witness :
    SfReach wC8state ∧
      (wC8state.fetchCount ≤ 1 ∧
        ∀ r ∈ wC8state.delivered, wC8state.status = .done r ∧ wC8state.fetchCount = 1) := by
  have h0 : SfReach ⟨.idle, 0, []⟩ := SfReach.init
  have h1 := SfReach.step h0 (SfStep.start 0 [])
  have h2 := SfReach.step h1 (SfStep.complete (.prim .pnull Option.none) 1 [])
  have h3 := SfReach.step h2 (SfStep.deliver (.prim .pnull Option.none) 1 [])
  have h4 := SfReach.step h3
    (SfStep.deliver (.prim .pnull Option.none) 1 [.prim .pnull Option.none])
  exact ⟨h4, claim_C8_single_flight wC8state h4⟩

/-- C9: every record built by the producer's `create_sample_order` —
whatever the run's uuids and timestamp — has `customer.shippingAddress`
null, `notes` null, exactly two items, a null `discount` on the first
item and a present `Money`-branch union value as the second item's
`discount`: the nested null/union-typed optionals the end-to-end
scenario requires. -/
theorem claim_C9_sample_order_shape (orderId orderDate txnSuffix : String) :
    ((pyGet (create_sample_order orderId orderDate txnSuffix) "customer").bind
        (fun c => pyGet c "shippingAddress")) = some .none ∧
    pyGet (create_sample_order orderId orderDate txnSuffix) "notes" = some .none ∧
    ((pyGet (create_sample_order orderId orderDate txnSuffix) "items").bind pyListLen)
      = some 2 ∧
    (((pyGet (create_sample_order orderId orderDate txnSuffix) "items").bind
        (fun v => pyIdx v 0)).bind (fun it => pyGet it "discount")) = some .none ∧
    (((pyGet (create_sample_order orderId orderDate txnSuffix) "items").bind
        (fun v => pyIdx v 1)).bind (fun it => pyGet it "discount"))
      = some (.dict [("com.example.types.Money",
          .dict [("amount", .num 5), ("currency", .str "USD")])]) :=
  ⟨rfl, rfl, rfl, rfl, rfl⟩

/-- C10: on every run of the consumer loop — through normal messages,
empty polls, per-message consumer errors, deserialized `None`s and the
KeyboardInterrupt — `consumer.close()` appears exactly once in the
trace, after the loop; and a message whose deserialization yields `None`
contributes nothing to the trace (it is skipped, not printed, and the
loop continues). -/
theorem claim_C10_consumer_close_once (evs pre post : List PollEvent) :
    countClose (consumerMain evs) = 1 ∧
    consumerMain (pre ++ .message .none :: post) = consumerMain (pre ++ post) := by
  constructor
  · have h0 : ((runLoop evs).filter
        (fun a => match a with | .close => true | _ => false)) = [] :=
      List.length_eq_zero.mp (runLoop_no_close evs)
    show ((runLoop evs ++ [ConsumerAction.close]).filter
      (fun a => match a with | ConsumerAction.close => true | _ => false)).length = 1
    rw [List.filter_append, h0]
    rfl
  · unfold consumerMain
    rw [runLoop_skip_none]

end Srctl
